import Mathlib

/-!
# A verification model of `autoimpute.imputations.ts.TimeSeriesImputer`

This file shallowly embeds the fit/transform engine of
`src/autoimpute/imputations/ts.py` and proves (or refutes) the frozen
specification claims about it.

Modelling conventions:
* A pandas cell value is `Val`: missing (`NaN`/`NaT`), an exact rational
  (standing for a float), a timestamp (an integer, standing for a
  `datetime64` instant), or a categorical string.
* A `Frame` is a list of named, dtype-tagged columns together with a row
  index; the index is either a `DatetimeIndex` (`isDt = true`, with integer
  timestamp keys) or a non-datetime index.
* Randomness (`np.random.choice`, `scipy.stats.norm.rvs`) is modelled by an
  oracle supplying, per column name and per draw number, the chosen index
  (for `random`) or the sampled value (for `norm`).
* Python exceptions become constructors of `ImputeErr`.  The spec's error
  taxonomy names are used for errors the spec names; Python's built-in
  `IndexError` / `KeyError` / `ValueError` that escape without a dedicated
  message keep their Python names.
* Helper functions that the repository imports from modules outside
  `src/` (`autoimpute.utils.helpers`, `autoimpute.utils.checks`,
  `autoimpute.imputations.methods`, sklearn's `check_is_fitted`) are
  modelled from the spec; each such definition carries a doc comment
  saying so.
-/

/-- A single cell of a dataset: missing, numeric, timestamp, or categorical. -/
inductive Val where
  | na : Val
  | num (q : ℚ) : Val
  | dt (t : ℤ) : Val
  | str (s : String) : Val
deriving DecidableEq, Repr

/-- Column dtype tag, mirroring the pandas dtype of the column. -/
inductive Dtype where
  | num : Dtype
  | dt : Dtype
  | cat : Dtype
deriving DecidableEq, Repr

/-- A named, dtype-tagged column of values. -/
structure Column where
  name : String
  dtype : Dtype
  vals : List Val
deriving DecidableEq, Repr

/-- The row index of a frame: `isDt` says whether it is a `DatetimeIndex`;
`keys` are the index values as integer timestamps (row numbers for a
non-datetime index); `name` is the index name (the promoted column's name
after `set_index`). -/
structure Idx where
  isDt : Bool
  keys : List ℤ
  iname : Option String
deriving DecidableEq, Repr

/-- A dataset: a row index plus a list of columns. -/
structure Frame where
  index : Idx
  cols : List Column
deriving DecidableEq, Repr

/-- Errors raised by the engine.  Spec-taxonomy errors keep their spec
names; bare Python exceptions keep their Python names. -/
inductive ImputeErr where
  | missingnessError : ImputeErr
  | missingTemporalAxis : ImputeErr
  | invalidStrategyName : ImputeErr
  | invalidStrategyMapping : ImputeErr
  | columnMismatch : ImputeErr
  | invalidIndexColumn : ImputeErr
  | notFitted : ImputeErr
  | indexError : ImputeErr
  | keyError (c : String) : ImputeErr
  | valueError : ImputeErr
deriving DecidableEq, Repr

/-- The fitted parameter of one column (`ColumnStatistics.param`):
nothing (linear/time/none), a scalar (mean/median/mode), a `(mean,
dispersion)` pair (norm; the dispersion is kept as the variance since the
model works in `ℚ`; no claim inspects it), or the array of observed
training values (random). -/
inductive Param where
  | noParam : Param
  | scalar (v : Val) : Param
  | pair (mu sigma2 : ℚ) : Param
  | arr (vs : List Val) : Param
deriving DecidableEq, Repr

/-- One entry of `statistics_`: the fitted parameter and the resolved
strategy name for a column. -/
structure ColStat where
  param : Param
  strategy : String
deriving DecidableEq, Repr

/-- The `strategy` constructor argument: a single strategy name or a
per-column mapping. -/
inductive StratReq where
  | one (s : String) : StratReq
  | byCol (m : List (String × String)) : StratReq
deriving DecidableEq, Repr

/-- The mutable state of a `TimeSeriesImputer` instance: constructor
parameters plus the attributes `_nc`, `_strats`, `statistics_` that
`fit`/`transform` assign (`none` = attribute not yet set). -/
structure TSState where
  strategy : StratReq
  fill_value : Option Val
  index_column : Option String
  nc : Option (List String)
  strats : Option (List (String × String))
  statistics : Option (List (String × ColStat))
deriving DecidableEq, Repr

/-- Oracle for the random draws of `transform`: `choice c k` is the index
drawn by `np.random.choice` for the `k`-th missing position of column `c`;
`gauss c k` is the value sampled by `scipy.stats.norm.rvs` there. -/
structure RNG where
  choice : String → Nat → Nat
  gauss : String → Nat → ℚ

/-- A fresh imputer state, as `__init__` leaves it. -/
def mkState (req : StratReq) (fv : Option Val) (ic : Option String) : TSState :=
  ⟨req, fv, ic, none, none, none⟩

/-- Is a value missing? -/
def isNa : Val → Bool
  | .na => true
  | _ => false

/-- The numeric content of a value, if any. -/
def num? : Val → Option ℚ
  | .num q => some q
  | _ => none

/-- The timestamp content of a datetime value (0 otherwise; only applied to
datetime columns). -/
def tsOf : Val → ℤ
  | .dt t => t
  | _ => 0

/-- Observed (non-missing) values of a column. -/
def obs (vs : List Val) : List Val := vs.filter (fun v => !(isNa v))

/-- Observed numeric values of a column. -/
def obsQ (vs : List Val) : List ℚ := vs.filterMap num?

/-- Number of missing entries of a list. -/
def naCount (vs : List Val) : Nat := (vs.filter (fun v => isNa v)).length

/-- A column is entirely missing. -/
def allNa (vs : List Val) : Bool := vs.all (fun v => isNa v)

/-- Every entry is missing or numeric (a float64 column). -/
def numOrNa (vs : List Val) : Bool := vs.all (fun v => isNa v || (num? v).isSome)

/-- The column names of a frame, in order (`X.columns.tolist()`). -/
def Frame.colNames (X : Frame) : List String := X.cols.map (·.name)

/-- Look up a column by name (`X[c]`; `none` models the `KeyError`). -/
def Frame.findCol (X : Frame) (c : String) : Option Column :=
  X.cols.find? (fun col => col.name = c)

/-- The values of column `c` (empty if absent). -/
def Frame.colVals (X : Frame) (c : String) : List Val :=
  match X.findCol c with
  | some col => col.vals
  | none => []

/-- Replace the values of the column named `c`. -/
def Frame.setCol (X : Frame) (c : String) (vs : List Val) : Frame :=
  { X with cols := X.cols.map (fun col => if col.name = c then { col with vals := vs } else col) }

/-- Names of the datetime-typed columns in order
(`X.select_dtypes(include=[np.datetime64]).columns`). -/
def dtColNames (X : Frame) : List String :=
  (X.cols.filter (fun col => col.dtype = Dtype.dt)).map (·.name)

/-- Model of `X.set_index(c, drop=True)`: the column `c` becomes the (datetime) row
index and is removed from the columns. -/
def setIndex (X : Frame) (c : String) : Frame :=
  { index := ⟨true, (X.colVals c).map tsOf, some c⟩,
    cols := X.cols.filter (fun col => ¬ col.name = c) }

/-- Stable insertion into a Bool-ordered list. -/
def insertLe (le : α → α → Bool) (a : α) : List α → List α
  | [] => [a]
  | b :: bs => if le a b then a :: b :: bs else b :: insertLe le a bs

/-- Insertion sort by a Bool order. -/
def isortLe (le : α → α → Bool) : List α → List α
  | [] => []
  | a :: as => insertLe le a (isortLe le as)

/-- The row permutation `np.argsort`-style for ascending index keys.  The
library sort (`numpy`'s default quicksort) fixes no order on tied keys; the
model picks one concrete order.  No theorem below depends on the order of
tied keys of a non-monotone index. -/
def argsortKeys (keys : List ℤ) : List Nat :=
  (isortLe
    (fun p q : Nat × ℤ =>
      if p.2 < q.2 then true else if p.2 = q.2 then decide (p.1 ≤ q.1) else false)
    keys.enum).map (·.1)

/-- Model of `Index.is_monotonic_increasing`: consecutive keys are nondecreasing. -/
def monoLe : List ℤ → Bool
  | [] => true
  | [_] => true
  | a :: b :: rest => decide (a ≤ b) && monoLe (b :: rest)

/-- Strictly increasing index keys: the spec's "strictly sortable" temporal
axis, sorted ascending with no duplicated timestamp. -/
def monoLt : List ℤ → Bool
  | [] => true
  | [_] => true
  | a :: b :: rest => decide (a < b) && monoLt (b :: rest)

/-- Model of `X.sort_index(ascending=True)`: pandas returns the frame unchanged when
the index is already monotone nondecreasing, and otherwise reorders all
rows by an argsort of the index keys. -/
def sortRows (X : Frame) : Frame :=
  if monoLe X.index.keys then X
  else
    let perm := argsortKeys X.index.keys
    { index := ⟨X.index.isDt, perm.map (fun i => X.index.keys.getD i 0), X.index.iname⟩,
      cols := X.cols.map (fun col => { col with vals := perm.map (fun i => col.vals.getD i Val.na) }) }

/-- Modelled from the spec: the `check_missingness` decorator
(`autoimpute.utils.checks`, not under `src/`) rejects empty or fully
missing data before `fit`/`transform` run; it passes iff some observed
value exists. -/
def checkMissingness (X : Frame) : Bool :=
  X.cols.any (fun col => col.vals.any (fun v => !(isNa v)))

/-- Modelled from the spec: `_nan_col_dropper`
(`autoimpute.utils.helpers`, not under `src/`) drops the all-missing
columns and returns them by name; no other mutation. -/
def nanColDropper (X : Frame) : Frame × List String :=
  ({ X with cols := X.cols.filter (fun col => ¬ allNa col.vals) },
   (X.cols.filter (fun col => allNa col.vals)).map (·.name))

/-- The fixed strategy registry keys of `TimeSeriesImputer.strategies`. -/
def registryNames : List String :=
  ["default", "mean", "median", "mode", "random", "norm", "linear", "time", "none"]

/-- Modelled from the spec: `_check_strategy` (`autoimpute.utils.checks`,
not under `src/`) validates the single-name strategy form against the
registry at construction. -/
def checkStrategy (req : StratReq) : Except ImputeErr StratReq :=
  match req with
  | .one s => if registryNames.contains s then .ok (.one s) else .error .invalidStrategyName
  | .byCol m => .ok (.byCol m)

/-- Modelled from the spec: `_check_fit_strat` (`autoimpute.utils.checks`,
not under `src/`).  A single name is assigned to every remaining column
(failing with `InvalidStrategyName` if unregistered); a mapping must have
keys among the original columns and registered values (else
`InvalidStrategyMapping`), keys of dropped columns are silently excluded,
and remaining columns absent from the mapping get `"default"`. -/
def checkFitStrat (req : StratReq) (ocols ncols : List String) :
    Except ImputeErr (List (String × String)) :=
  match req with
  | .one s =>
      if registryNames.contains s then .ok (ncols.map (fun c => (c, s)))
      else .error .invalidStrategyName
  | .byCol m =>
      if m.any (fun p => !(ocols.contains p.1)) then .error .invalidStrategyMapping
      else if m.any (fun p => !(registryNames.contains p.2)) then .error .invalidStrategyMapping
      else .ok (ncols.map (fun c => (c, ((m.lookup c).getD "default"))))

/-- The mean of a list of rationals (`0` for the empty list; `fit` only
applies it after the all-missing columns are dropped). -/
def qmean (qs : List ℚ) : ℚ := qs.sum / (qs.length : ℚ)

/-- The median of a list of rationals (sort, take the middle element, or
the average of the two middle elements). -/
def qmedian (qs : List ℚ) : ℚ :=
  let sorted := isortLe (fun a b : ℚ => decide (a ≤ b)) qs
  let n := sorted.length
  if n = 0 then 0
  else if n % 2 = 1 then sorted.getD (n / 2) 0
  else (sorted.getD (n / 2 - 1) 0 + sorted.getD (n / 2) 0) / 2

/-- The population variance of a list of rationals. -/
def qvar (qs : List ℚ) : ℚ :=
  ((qs.map (fun q => (q - qmean qs) ^ 2)).sum) / (qs.length : ℚ)

/-- The number of occurrences of a value. -/
def countOcc (vs : List Val) (v : Val) : Nat := vs.count v

/-- Modelled from the spec: the modal value learned by `_mode`
(`autoimpute.imputations.methods`, not under `src/`); the spec stores a
scalar for mode and leaves tie selection policy-configurable, so the model
deterministically picks a most frequent observed value (`Val.na` only for
an empty observation list, which `fit` never produces after dropping). -/
def modeOf (vs : List Val) : Val :=
  match vs with
  | [] => Val.na
  | v :: rest => rest.foldl (fun best x => if countOcc vs x > countOcc vs best then x else best) v

/-- Modelled from the spec: `_ts_default` resolves the `"default"`
placeholder by column type (numeric columns default to linear
interpolation, non-numeric to mode, the datetime column to none); any
other name resolves to itself. -/
def resolveStrat (fname : String) (col : Column) : String :=
  if fname = "default" then
    match col.dtype with
    | .num => "linear"
    | .dt => "none"
    | .cat => "mode"
  else fname

/-- Modelled from the spec: the parameter each resolved strategy learns
from a column — a scalar for mean/median/mode, the observed-value array
for random, a location and dispersion for norm, nothing for
linear/time/none. -/
def paramFor (rname : String) (col : Column) : Param :=
  if rname = "mean" then .scalar (Val.num (qmean (obsQ col.vals)))
  else if rname = "median" then .scalar (Val.num (qmedian (obsQ col.vals)))
  else if rname = "mode" then .scalar (modeOf (obs col.vals))
  else if rname = "random" then .arr (obs col.vals)
  else if rname = "norm" then .pair (qmean (obsQ col.vals)) (qvar (obsQ col.vals))
  else .noParam

/-- Modelled from the spec: the per-strategy learning functions of
`autoimpute.imputations.methods` (not under `src/`): resolve the strategy
name (only `"default"` resolves to something else) and learn the
corresponding parameter; each returns the resolved strategy name. -/
def learnCol (fname : String) (col : Column) : Param × String :=
  (paramFor (resolveStrat fname col) col, resolveStrat fname col)

/-- The `statistics_` dictionary built by `fit`'s learning loop: for each
assigned column, apply its strategy's learning function to that column of
the original frame (the loop reads `X[col_name]` on the un-dropped frame;
the assigned columns all survive the drop, and dropping other columns does
not change their values). -/
def learnedStats (X : Frame) (strats : List (String × String)) : List (String × ColStat) :=
  strats.map (fun p =>
    (p.1,
      match X.findCol p.1 with
      | some col =>
          let r := learnCol p.2 col
          ColStat.mk r.1 r.2
      | none => ColStat.mk .noParam p.2))

/-- Model of `TimeSeriesImputer.fit` (with its `check_missingness` decorator).  The
state is threaded explicitly so that the attribute writes that happen
before a raise are visible: `_fit_strategy_validator` first checks the
temporal axis, then assigns `self._nc` from `_nan_col_dropper`, then
assigns `self._strats` from `_check_fit_strat` (which may raise after
`_nc` was already overwritten); on success the learning loop builds
`statistics_` from the original frame. -/
def fit (s : TSState) (X : Frame) : TSState × Option ImputeErr :=
  if checkMissingness X = false then (s, some .missingnessError)
  else if X.index.isDt = false ∧ dtColNames X = [] then (s, some .missingTemporalAxis)
  else
    let dropped := nanColDropper X
    let s₁ := { s with nc := some dropped.2 }
    match checkFitStrat s.strategy X.colNames dropped.1.colNames with
    | .error e => (s₁, some e)
    | .ok strats =>
        ({ s₁ with strats := some strats, statistics := some (learnedStats X strats) }, none)

/-- Remove a column's entry from `_strats` (`self._strats.pop(c, None)`). -/
def popStrat (s : TSState) (c : String) : TSState :=
  { s with strats := s.strats.map (fun l => l.filter (fun p => ¬ p.1 = c)) }

/-- The `diff_fit` check of `_transform_strategy_validator`: is some fitted
column absent from the frame? -/
def colMismatchCheck (s : TSState) (X : Frame) : Bool :=
  ((s.strats.getD []).map Prod.fst).any (fun c => !(X.colNames.contains c))

/-- Model of `TimeSeriesImputer._transform_strategy_validator`.  It first raises
`ColumnMismatch` when a fitted column is missing; with a non-datetime index
it evaluates `ts.columns[0]` before examining the count of datetime columns
(an unguarded `IndexError` when there are none), promotes the unique / the
first / the requested datetime column (popping it from `_strats`), raises
`InvalidIndexColumn` when the requested column is not datetime-typed, and
finally sorts by the index.  Every raising path happens before any `pop`,
so the state is returned only on success. -/
def transformStrategyValidator (s : TSState) (X : Frame) :
    Except ImputeErr (TSState × Frame) :=
  if colMismatchCheck s X then .error .columnMismatch
  else if X.index.isDt then .ok (s, sortRows X)
  else
    match dtColNames X with
    | [] => .error .indexError
    | fts :: rest =>
        if rest = [] then .ok (popStrat s fts, sortRows (setIndex X fts))
        else
          match s.index_column with
          | none => .ok (popStrat s fts, sortRows (setIndex X fts))
          | some ic =>
              if (dtColNames X).contains ic then .ok (popStrat s ic, sortRows (setIndex X ic))
              else .error .invalidIndexColumn

/-- Model of `fillna(fill_val)`: replace every missing entry by the scalar (also the
fill applied by `_mode_output`, modelled from the spec with the stored
scalar mode). -/
def scalarFill (fv : Val) (v : List Val) : List Val :=
  v.map (fun x => if isNa x then fv else x)

/-- The rank of position `i` among the missing positions of `v` (how many
missing entries precede it): the draw number used for position `i`. -/
def naRank (v : List Val) (i : Nat) : Nat := naCount (v.take i)

/-- The `random` and `norm` fills write through the label-based assignment
`X.loc[imp_ind, col_name] = fills`, where `imp_ind` holds the index
labels of the missing rows and `fills` one drawn value per missing row.
That assignment is a clean positional write at the missing rows exactly
when each missing row's index label occurs only once in the index, which
`locUnique` checks.  When a missing row's timestamp is duplicated, the
label selects several rows, the array-valued right-hand side misaligns
with the selection, and pandas raises (`fillVals` models the duplicate
case as its `ValueError`; no success theorem below reaches it). -/
def locUnique (keys : List ℤ) (v : List Val) : Bool :=
  (List.range v.length).all (fun i =>
    !(isNa (v.getD i Val.na)) || (keys.count (keys.getD i 0) == 1))

/-- The `random` fill in the unique-label case (see `locUnique`): the
`k`-th missing position receives `fill_val[choice k]`, one draw per
missing position (`np.random.choice(fill_val, len(imp_ind))` followed by
the `.loc` assignment, which is positional at the missing rows since each
of their labels selects exactly its own row). -/
def randomFill (rng : RNG) (c : String) (arr : List Val) (v : List Val) : List Val :=
  (List.range v.length).map (fun i =>
    let x := v.getD i Val.na
    if isNa x then arr.getD (rng.choice c (naRank v i) % arr.length) Val.na else x)

/-- The `norm` fill in the unique-label case (see `locUnique`): the `k`-th
missing position receives the `k`-th sampled value
(`norm.rvs(loc=mu, scale=std, size=len(imp_ind))` followed by the `.loc`
assignment). -/
def normFill (rng : RNG) (c : String) (v : List Val) : List Val :=
  (List.range v.length).map (fun i =>
    let x := v.getD i Val.na
    if isNa x then Val.num (rng.gauss c (naRank v i)) else x)

/-- The previous observed numeric value strictly before position `i`
(position and value), if any. -/
def prevObs (v : List Val) (i : Nat) : Option (Nat × ℚ) :=
  ((List.range i).reverse.filterMap (fun j => (num? (v.getD j Val.na)).map (fun q => (j, q)))).head?

/-- The next observed numeric value strictly after position `i`. -/
def nextObs (v : List Val) (i : Nat) : Option (Nat × ℚ) :=
  ((List.range' (i + 1) (v.length - (i + 1))).filterMap
    (fun k => (num? (v.getD k Val.na)).map (fun q => (k, q)))).head?

/-- One position of `Series.interpolate(method='linear')` (modelled from
the spec through `_interp`, not under `src/`): interior gaps are linearly
interpolated on row position, trailing gaps clamp to the last observed
value, leading gaps stay missing. -/
def interpLinAt (v : List Val) (i : Nat) : Val :=
  let x := v.getD i Val.na
  if isNa x then
    match prevObs v i, nextObs v i with
    | some jq, some kq =>
        Val.num (jq.2 + (kq.2 - jq.2) * (((i : ℚ) - (jq.1 : ℚ)) / ((kq.1 : ℚ) - (jq.1 : ℚ))))
    | some jq, none => Val.num jq.2
    | none, _ => Val.na
  else x

/-- Model of `Series.interpolate(method='linear')` applied to a whole column. -/
def interpLinear (v : List Val) : List Val :=
  (List.range v.length).map (interpLinAt v)

/-- One position of `Series.interpolate(method='time')`: like linear but
interpolating on the temporal index spacing. -/
def interpTimeAt (idx : List ℤ) (v : List Val) (i : Nat) : Val :=
  let x := v.getD i Val.na
  if isNa x then
    match prevObs v i, nextObs v i with
    | some jq, some kq =>
        Val.num (jq.2 + (kq.2 - jq.2) *
          ((((idx.getD i 0 : ℤ) : ℚ) - ((idx.getD jq.1 0 : ℤ) : ℚ)) /
           (((idx.getD kq.1 0 : ℤ) : ℚ) - ((idx.getD jq.1 0 : ℤ) : ℚ))))
    | some jq, none => Val.num jq.2
    | none, _ => Val.na
  else x

/-- Model of `Series.interpolate(method='time')` applied to a whole column. -/
def interpTime (idx : List ℤ) (v : List Val) : List Val :=
  (List.range v.length).map (interpTimeAt idx v)

/-- The scalar stored in a parameter (missing when the shapes disagree,
which a real `fit` never produces). -/
def paramScalar : Param → Val
  | .scalar fv => fv
  | _ => Val.na

/-- The pure content of the per-column fill of `transform`'s loop body for
one column, given its resolved strategy and parameter. -/
def fillValsFun (rng : RNG) (idx : List ℤ) (c : String) (st : ColStat) (v : List Val) :
    List Val :=
  if st.strategy = "mean" ∨ st.strategy = "median" then scalarFill (paramScalar st.param) v
  else if st.strategy = "mode" then scalarFill (paramScalar st.param) v
  else if st.strategy = "random" then
    match st.param with
    | .arr a => randomFill rng c a v
    | _ => v
  else if st.strategy = "linear" then interpLinear v
  else if st.strategy = "time" then interpTime idx v
  else if st.strategy = "norm" then normFill rng c v
  else v

/-- The per-column fill including its failure modes:
`np.random.choice` raises `ValueError` on an empty value array, and the
label-based `.loc` assignment used by the `random` and `norm` strategies
raises when a missing row's index label is duplicated (see `locUnique`). -/
def fillVals (rng : RNG) (idx : List ℤ) (c : String) (st : ColStat) (v : List Val) :
    Except ImputeErr (List Val) :=
  if st.strategy = "random" then
    match st.param with
    | .arr a =>
        if a = [] then .error .valueError
        else if locUnique idx v then .ok (fillValsFun rng idx c st v)
        else .error .valueError
    | _ => .ok (fillValsFun rng idx c st v)
  else if st.strategy = "norm" then
    if locUnique idx v then .ok (fillValsFun rng idx c st v)
    else .error .valueError
  else .ok (fillValsFun rng idx c st v)

/-- The transformation loop of `transform`: for each entry of
`statistics_` in order, look the column up in the frame (`X[col_name]`, a
`KeyError` when absent) and apply its strategy's fill. -/
def fillLoop (rng : RNG) (idx : List ℤ) (stats : List (String × ColStat)) (X : Frame) :
    Except ImputeErr Frame :=
  match stats with
  | [] => .ok X
  | p :: rest =>
      match X.findCol p.1 with
      | none => .error (.keyError p.1)
      | some col =>
          match fillVals rng idx p.1 p.2 col.vals with
          | .error e => .error e
          | .ok vs => fillLoop rng idx rest (X.setCol p.1 vs)

/-- Model of `TimeSeriesImputer.transform` (with its `check_missingness` decorator):
missingness precondition, `check_is_fitted(self, 'statistics_')`
(modelled from the spec for sklearn: fails with `NotFitted` when
`statistics_` was never assigned), the transform validator, then the fill
loop over `statistics_` — note: over `statistics_`, not over the `_strats`
that the validator popped the promoted column from. -/
def transform (s : TSState) (X : Frame) (rng : RNG) :
    TSState × Except ImputeErr Frame :=
  if checkMissingness X = false then (s, .error .missingnessError)
  else
    match s.statistics with
    | none => (s, .error .notFitted)
    | some stats =>
        match transformStrategyValidator s X with
        | .error e => (s, .error e)
        | .ok sX =>
            match fillLoop rng sX.2.index.keys stats sX.2 with
            | .error e => (sX.1, .error e)
            | .ok Y => (sX.1, .ok Y)

/-- Decidable equality for `Except` results, so that concrete runs of the
engine can be checked by `decide`. -/
instance {ε α : Type} [DecidableEq ε] [DecidableEq α] : DecidableEq (Except ε α) := fun a b =>
  match a, b with
  | .error e, .error e' =>
      if h : e = e' then isTrue (by rw [h])
      else isFalse (fun hh => h (by cases hh; rfl))
  | .error _, .ok _ => isFalse (fun hh => Except.noConfusion hh)
  | .ok _, .error _ => isFalse (fun hh => Except.noConfusion hh)
  | .ok x, .ok x' =>
      if h : x = x' then isTrue (by rw [h])
      else isFalse (fun hh => h (by cases hh; rfl))

/-- The missing entries of a list occupy (at most) a leading block: any
missing entry has only missing entries before it.  This is the residue
that forward-only interpolation leaves. -/
def naLeading (vs : List Val) : Prop :=
  ∀ i j, i ≤ j → j < vs.length → isNa (vs.getD j Val.na) = true →
    isNa (vs.getD i Val.na) = true

/-! ## Concrete inputs used by counterexamples and code-bug evaluations -/

/-- A deterministic random oracle used wherever the claim holds for every
oracle. -/
def rngZero : RNG := ⟨fun _ _ => 0, fun _ _ => 0⟩

/-- The engine of the spec's linear-interpolation scenario. -/
def c4State : TSState := mkState (.one "linear") none none

/-- The spec scenario: `[date, value]`, five ascending days,
`value = [1, NaN, 3, NaN, 5]`. -/
def c4Frame : Frame :=
  ⟨⟨false, [0, 1, 2, 3, 4], none⟩,
   [⟨"date", .dt, [.dt 0, .dt 1, .dt 2, .dt 3, .dt 4]⟩,
    ⟨"value", .num, [.num 1, .na, .num 3, .na, .num 5]⟩]⟩

/-- Engine for the C2 evaluation. -/
def c2State : TSState := mkState (.one "mean") none none

/-- A two-column frame whose datetime column must be promoted. -/
def c2Frame : Frame :=
  ⟨⟨false, [0, 1], none⟩,
   [⟨"d", .dt, [.dt 10, .dt 11]⟩,
    ⟨"v", .num, [.na, .num 4]⟩]⟩

/-- Engine for the C1 counterexample. -/
def c1xState : TSState := mkState (.one "linear") none none

/-- A time-indexed frame whose only column starts with a missing value. -/
def c1xFrame : Frame :=
  ⟨⟨true, [0, 1], none⟩, [⟨"value", .num, [.na, .num 2]⟩]⟩

/-- Engine for the C3 counterexample. -/
def c3xState : TSState := mkState (.one "mean") none none

/-- A valid frame that needs datetime-column promotion. -/
def c3xFrame : Frame :=
  ⟨⟨false, [0, 1], none⟩,
   [⟨"date", .dt, [.dt 3, .dt 4]⟩,
    ⟨"value", .num, [.na, .num 2]⟩]⟩

/-- Engine for the C5 counterexample: a per-column mapping naming `w`. -/
def c5xState : TSState := mkState (.byCol [("w", "median")]) none none

/-- First (successfully fitted) frame of the C5 counterexample. -/
def c5xA : Frame :=
  ⟨⟨false, [0, 1], none⟩,
   [⟨"date", .dt, [.dt 5, .dt 6]⟩,
    ⟨"w", .num, [.na, .num 1]⟩]⟩

/-- Second frame of the C5 counterexample: lacks `w`, has an all-missing
column `z`, so its `fit` overwrites `_nc` and then fails. -/
def c5xB : Frame :=
  ⟨⟨false, [0], none⟩,
   [⟨"date", .dt, [.dt 7]⟩,
    ⟨"z", .num, [.na]⟩]⟩

/-- A fitted state used by the C6 witness (the validator reads only
`_strats` and `index_column`). -/
def c6Base : TSState :=
  { mkState (.one "mean") none none with
      strats := some [("a", "mean")],
      statistics := some [("a", ⟨.scalar (Val.num 1), "mean"⟩)] }

/-- A frame with two datetime columns for the C6 witness. -/
def c6Frame : Frame :=
  ⟨⟨false, [0], none⟩,
   [⟨"a", .num, [Val.num 1]⟩,
    ⟨"t1", .dt, [Val.dt 0]⟩,
    ⟨"t2", .dt, [Val.dt 1]⟩]⟩

/-- Concrete engine for the C9 witness. -/
def c9State : TSState := mkState (.one "random") none none

/-- Concrete frame for the C9 witness. -/
def c9Frame : Frame := ⟨⟨true, [0, 1], none⟩, [⟨"v", .num, [Val.num 7, Val.na]⟩]⟩

/-- The concrete output of `transform` for the C9 witness. -/
def c9Out : Frame := ⟨⟨true, [0, 1], none⟩, [⟨"v", .num, [Val.num 7, Val.num 7]⟩]⟩

/-! ## C4 (code bug) -/

/-- C4: the spec scenario `[date, value]`, `value = [1, NaN, 3, NaN, 5]`,
strategy `"linear"` is claimed to yield `value = [1, 2, 3, 4, 5]`.  The
code instead raises: `fit` succeeds, but `transform` promotes `date` to
the index (popping it only from `_strats`) while the fill loop iterates
`statistics_`, which still holds `date`, so `X["date"]` raises `KeyError`.
The second conjunct shows the claimed interpolation result is exactly what
the fill would have produced on the `value` column. -/
theorem C4_keyerror_on_spec_scenario :
    (fit c4State c4Frame).2 = none ∧
    (fit c4State c4Frame).1.statistics
      = some [("date", ⟨.noParam, "linear"⟩), ("value", ⟨.noParam, "linear"⟩)] ∧
    (transform (fit c4State c4Frame).1 c4Frame rngZero).2 = .error (.keyError "date") ∧
    interpLinear [Val.num 1, Val.na, Val.num 3, Val.na, Val.num 5]
      = [Val.num 1, Val.num 2, Val.num 3, Val.num 4, Val.num 5] := by
  with_unfolding_all decide

/-! ## C2 (code bug) -/

/-- C2: after promotion the column's name is indeed removed from `_strats`
and the rows are sorted, but the fill loop does not use `_strats`: it
iterates `statistics_`, which still holds the promoted column, so a fill
IS attempted for it and `transform` raises `KeyError` instead of
returning.  The conjuncts exhibit: a successful fit over both columns, the
popped `_strats`, and the `KeyError` on the promoted column. -/
theorem C2_fill_attempted_for_promoted_column :
    (fit c2State c2Frame).2 = none ∧
    (fit c2State c2Frame).1.strats = some [("d", "mean"), ("v", "mean")] ∧
    (transform (fit c2State c2Frame).1 c2Frame rngZero).1.strats
      = some [("v", "mean")] ∧
    (transform (fit c2State c2Frame).1 c2Frame rngZero).2
      = .error (.keyError "d") := by
  with_unfolding_all decide

/-! ## C1 counterexample -/

/-- C1 is false as stated: a dataset with a valid (datetime) index, no
all-missing column, and a column fitted with the non-`none` strategy
`"linear"` whose first value is missing comes back from `fit`-then-
`transform` with that position still missing (pandas linear interpolation
fills forward only, leaving leading gaps). -/
theorem C1_counterexample_leading_gap :
    (fit c1xState c1xFrame).2 = none ∧
    ((fit c1xState c1xFrame).1.statistics.getD []).lookup "value"
      = some ⟨.noParam, "linear"⟩ ∧
    (transform (fit c1xState c1xFrame).1 c1xFrame rngZero).2 = .ok c1xFrame ∧
    naCount (c1xFrame.colVals "value") = 1 := by
  with_unfolding_all decide

/-! ## C3 counterexample -/

/-- C3 is false as stated: on a valid input whose temporal axis is a
column, `transform` of a fitted engine returns no dataset at all — it
raises `KeyError` on the promoted column (and even absent the defect,
promotion removes that column, changing the column set). -/
theorem C3_counterexample_promotion :
    (fit c3xState c3xFrame).2 = none ∧
    (transform (fit c3xState c3xFrame).1 c3xFrame rngZero).2
      = .error (.keyError "date") := by
  with_unfolding_all decide

/-! ## C5 counterexample -/

/-- C5 is false as stated: (a) after a successful fit (`_nc = []`), a
second, failing fit on a frame with an all-missing column overwrites the
stored `_nc` to `["z"]` before `_check_fit_strat` raises; (b) a failing
`transform` pops the promoted column from the fitted `_strats` before the
fill loop raises, so the stored fitted state is mutated by a failed
call. -/
theorem C5_counterexample_mutation_on_failure :
    (fit c5xState c5xA).2 = none ∧
    (fit c5xState c5xA).1.nc = some [] ∧
    (fit (fit c5xState c5xA).1 c5xB).2 = some .invalidStrategyMapping ∧
    (fit (fit c5xState c5xA).1 c5xB).1.nc = some ["z"] ∧
    (fit c5xState c5xA).1.strats = some [("date", "default"), ("w", "median")] ∧
    (transform (fit c5xState c5xA).1 c5xA rngZero).2 = .error (.keyError "date") ∧
    (transform (fit c5xState c5xA).1 c5xA rngZero).1.strats
      = some [("w", "median")] := by
  with_unfolding_all decide

/-! ## Structural lemmas about state preservation -/

/-- Popping a strategy entry does not touch `statistics_`. -/
theorem popStrat_statistics (s : TSState) (c : String) :
    (popStrat s c).statistics = s.statistics := rfl

/-- The transform validator never changes `statistics_` in the state it
returns. -/
theorem validator_statistics (s : TSState) (X : Frame) (sX : TSState × Frame)
    (h : transformStrategyValidator s X = .ok sX) :
    sX.1.statistics = s.statistics := by
  unfold transformStrategyValidator at h
  split at h
  · cases h
  · split at h
    · cases h; rfl
    · split at h
      · cases h
      · split at h
        · cases h; rfl
        · split at h
          · cases h; rfl
          · split at h
            · cases h; rfl
            · cases h

/-! ## C7: ColumnMismatch on a missing fitted column -/

/-- C7 (confirmed): for every fitted engine (`statistics_` assigned) and
input passing the missingness precondition, `transform` fails with
`ColumnMismatch` whenever some column of the fitted strategy assignment is
absent from the input's columns. -/
theorem C7_column_mismatch (s : TSState) (X : Frame) (rng : RNG)
    (stats : List (String × ColStat)) (hfit : s.statistics = some stats)
    (hmiss : checkMissingness X = true)
    (c : String) (hc : c ∈ (s.strats.getD []).map Prod.fst)
    (hcn : c ∉ X.colNames) :
    transform s X rng = (s, .error .columnMismatch) := by
  have hcheck : colMismatchCheck s X = true := by
    unfold colMismatchCheck
    rw [List.any_eq_true]
    exact ⟨c, hc, by simp [List.elem_iff, hcn]⟩
  simp [transform, hmiss, hfit, transformStrategyValidator, hcheck]

/-- Witness for C7 at a concrete fitted engine and input lacking the
fitted column `"v"`. -/
theorem C7_column_mismatch_witness :
    transform
      { mkState (.one "mean") none none with
          strats := some [("v", "mean")],
          statistics := some [("v", ⟨.scalar (Val.num 3), "mean"⟩)] }
      ⟨⟨true, [0], none⟩, [⟨"w", .num, [Val.num 1]⟩]⟩ rngZero
    = ({ mkState (.one "mean") none none with
          strats := some [("v", "mean")],
          statistics := some [("v", ⟨.scalar (Val.num 3), "mean"⟩)] },
       .error .columnMismatch) := by
  apply C7_column_mismatch _ _ _ _ rfl (by with_unfolding_all decide) "v"
  · with_unfolding_all decide
  · with_unfolding_all decide

/-! ## C8: transform before a successful fit fails with NotFitted -/

/-- C8 (confirmed): `statistics_` is assigned only by a successful `fit`
(a failing `fit` leaves it unchanged and `transform` never changes it), and
whenever `statistics_` was never assigned, `transform` on any input passing
the missingness precondition fails with `NotFitted`. -/
theorem C8_not_fitted :
    (∀ s X s' e, fit s X = (s', some e) → s'.statistics = s.statistics) ∧
    (∀ s X rng, (transform s X rng).1.statistics = s.statistics) ∧
    (∀ s X rng, s.statistics = none → checkMissingness X = true →
      transform s X rng = (s, .error .notFitted)) := by
  refine ⟨?_, ?_, ?_⟩
  · intro s X s' e h
    unfold fit at h
    split at h
    · cases h; rfl
    · split at h
      · cases h; rfl
      · dsimp only at h
        split at h
        · cases h; rfl
        · cases h
  · intro s X rng
    unfold transform
    split
    · rfl
    · split
      · rfl
      · split
        · rfl
        · rename_i sX heq
          split
          · exact validator_statistics _ _ _ heq
          · exact validator_statistics _ _ _ heq
  · intro s X rng hs hmiss
    simp [transform, hmiss, hs]

/-- Witness for C8: a freshly constructed engine rejects `transform` with
`NotFitted` on a nonempty input. -/
theorem C8_not_fitted_witness :
    transform (mkState (.one "mean") none none)
      ⟨⟨true, [0], none⟩, [⟨"v", .num, [Val.num 1]⟩]⟩ rngZero
    = (mkState (.one "mean") none none, .error .notFitted) :=
  C8_not_fitted.2.2 _ _ _ rfl (by with_unfolding_all decide)

/-! ## C10: unguarded IndexError when no datetime column exists -/

/-- C10 (confirmed): on a fitted engine, an input that passes the
missingness precondition and the fitted-column check but has a
non-datetime index and zero datetime-typed columns makes `transform` fail
with Python's `IndexError` — `ts.columns[0]` is evaluated before the count
of datetime columns is examined — rather than any dedicated validation
error of the taxonomy. -/
theorem C10_index_error (s : TSState) (X : Frame) (rng : RNG)
    (stats : List (String × ColStat)) (hfit : s.statistics = some stats)
    (hmiss : checkMissingness X = true)
    (hcols : colMismatchCheck s X = false)
    (hix : X.index.isDt = false) (hts : dtColNames X = []) :
    transform s X rng = (s, .error .indexError) := by
  simp [transform, hmiss, hfit, transformStrategyValidator, hcols, hix, hts]

/-- Witness for C10: a fitted engine, an input with a plain integer index
and only numeric columns. -/
theorem C10_index_error_witness :
    transform
      { mkState (.one "mean") none none with
          strats := some [("v", "mean")],
          statistics := some [("v", ⟨.scalar (Val.num 3), "mean"⟩)] }
      ⟨⟨false, [0], none⟩, [⟨"v", .num, [Val.num 1]⟩]⟩ rngZero
    = ({ mkState (.one "mean") none none with
          strats := some [("v", "mean")],
          statistics := some [("v", ⟨.scalar (Val.num 3), "mean"⟩)] },
       .error .indexError) := by
  apply C10_index_error _ _ _ _ rfl <;> with_unfolding_all decide

/-! ## C6: choice of the promoted datetime column -/

/-- C6 (confirmed): at transform time, when the row index is not
datetime-typed and at least two datetime columns exist (and the fitted
columns are present), the validator promotes `index_column` when it names
a datetime column, promotes the first datetime column when `index_column`
is unset, and fails with `InvalidIndexColumn` when `index_column` names a
non-datetime column; promotion sets the frame's index to that column. -/
theorem C6_index_promotion (s : TSState) (X : Frame)
    (hcols : colMismatchCheck s X = false)
    (hix : X.index.isDt = false)
    (c1 c2 : String) (rest : List String)
    (hts : dtColNames X = c1 :: c2 :: rest) :
    (s.index_column = none →
      transformStrategyValidator s X = .ok (popStrat s c1, sortRows (setIndex X c1)) ∧
      (setIndex X c1).index.iname = some c1) ∧
    (∀ ic, s.index_column = some ic → (dtColNames X).contains ic = true →
      transformStrategyValidator s X = .ok (popStrat s ic, sortRows (setIndex X ic)) ∧
      (setIndex X ic).index.iname = some ic) ∧
    (∀ ic, s.index_column = some ic → (dtColNames X).contains ic = false →
      transformStrategyValidator s X = .error .invalidIndexColumn) := by
  refine ⟨?_, ?_, ?_⟩
  · intro hic
    refine ⟨?_, rfl⟩
    simp [transformStrategyValidator, hcols, hix, hts, hic]
  · intro ic hic hmem
    refine ⟨?_, rfl⟩
    have hmem' : ic ∈ dtColNames X := List.elem_iff.mp hmem
    rw [hts] at hmem'
    simp only [List.mem_cons] at hmem'
    simp [transformStrategyValidator, hcols, hix, hts, hic]
    intro h1 h2
    rcases hmem' with h | h | h
    · exact absurd h h1
    · exact absurd h h2
    · exact h
  · intro ic hic hmem
    have hmem' : ¬ ic ∈ dtColNames X := by simpa using hmem
    rw [hts] at hmem'
    simp only [List.mem_cons, not_or] at hmem'
    simp [transformStrategyValidator, hcols, hix, hts, hic]
    exact ⟨hmem'.1, hmem'.2.1, hmem'.2.2⟩

/-- Witness for C6: on the concrete two-datetime-column frame, leaving
`index_column` unset promotes `"t1"`, setting it to `"t2"` promotes
`"t2"`, and setting it to the non-datetime `"a"` raises
`InvalidIndexColumn`. -/
theorem C6_index_promotion_witness :
    transformStrategyValidator c6Base c6Frame
      = .ok (popStrat c6Base "t1", sortRows (setIndex c6Frame "t1")) ∧
    transformStrategyValidator { c6Base with index_column := some "t2" } c6Frame
      = .ok (popStrat { c6Base with index_column := some "t2" } "t2",
             sortRows (setIndex c6Frame "t2")) ∧
    transformStrategyValidator { c6Base with index_column := some "a" } c6Frame
      = .error .invalidIndexColumn := by
  refine ⟨?_, ?_, ?_⟩
  · exact ((C6_index_promotion c6Base c6Frame (by with_unfolding_all decide) rfl
      "t1" "t2" [] (by with_unfolding_all decide)).1 rfl).1
  · exact ((C6_index_promotion { c6Base with index_column := some "t2" } c6Frame
      (by with_unfolding_all decide) rfl "t1" "t2" [] (by with_unfolding_all decide)).2.1
      "t2" rfl (by with_unfolding_all decide)).1
  · exact (C6_index_promotion { c6Base with index_column := some "a" } c6Frame
      (by with_unfolding_all decide) rfl "t1" "t2" [] (by with_unfolding_all decide)).2.2
      "a" rfl (by with_unfolding_all decide)

/-! ## C5: mutation on failure -/

/-- The per-column fill can only fail with `ValueError` (empty `random`
pool, or a duplicated missing-row label under `random`/`norm`). -/
theorem fillVals_error (rng : RNG) (idx : List ℤ) (c : String) (st : ColStat)
    (v : List Val) (e : ImputeErr) (h : fillVals rng idx c st v = .error e) :
    e = .valueError := by
  unfold fillVals at h
  split at h
  · split at h
    · split at h
      · cases h; rfl
      · split at h
        · cases h
        · cases h; rfl
    · cases h
  · split at h
    · split at h
      · cases h
      · cases h; rfl
    · cases h

/-- The fill loop can only fail with `KeyError` or `ValueError`. -/
theorem fillLoop_error (rng : RNG) (idx : List ℤ) :
    ∀ (stats : List (String × ColStat)) (X : Frame) (e : ImputeErr),
      fillLoop rng idx stats X = .error e →
      (∃ c, e = .keyError c) ∨ e = .valueError := by
  intro stats
  induction stats with
  | nil => intro X e h; cases h
  | cons p rest ih =>
      intro X e h
      unfold fillLoop at h
      split at h
      · cases h
        exact .inl ⟨p.1, rfl⟩
      · split at h
        · rename_i heq
          cases h
          exact .inr (fillVals_error _ _ _ _ _ _ heq)
        · exact ih _ _ h

/-- C5 (amended, proved): a failing `fit` leaves the fitted strategy
assignment and the statistics untouched (the dropped-column record `_nc`
may be overwritten, as the counterexample shows), and a `transform` that
fails during validation — that is, with any error other than the fill
loop's `KeyError`/`ValueError` — returns the engine state unchanged and
produces no output. -/
theorem C5_amended_no_mutation_during_validation (s : TSState) (X : Frame) (rng : RNG) :
    (∀ s' e, fit s X = (s', some e) →
      s'.strats = s.strats ∧ s'.statistics = s.statistics) ∧
    (∀ s' e, transform s X rng = (s', .error e) →
      (∀ c, e ≠ .keyError c) → e ≠ .valueError → s' = s) := by
  constructor
  · intro s' e h
    unfold fit at h
    split at h
    · cases h; exact ⟨rfl, rfl⟩
    · split at h
      · cases h; exact ⟨rfl, rfl⟩
      · dsimp only at h
        split at h
        · cases h; exact ⟨rfl, rfl⟩
        · cases h
  · intro s' e h hk hv
    unfold transform at h
    split at h
    · cases h; rfl
    · split at h
      · cases h; rfl
      · split at h
        · cases h; rfl
        · split at h
          · rename_i hfl
            cases h
            rcases fillLoop_error _ _ _ _ _ hfl with ⟨c, rfl⟩ | rfl
            · exact absurd rfl (hk c)
            · exact absurd rfl hv
          · cases h

/-- Witness for the amended C5: a `transform` that fails with `NotFitted`
leaves the concrete engine state exactly as it was. -/
theorem C5_amended_witness :
    (transform (mkState (.one "mean") none none)
      ⟨⟨true, [0], none⟩, [⟨"v", .num, [Val.num 1]⟩]⟩ rngZero).1
    = mkState (.one "mean") none none := by
  refine (C5_amended_no_mutation_during_validation
    (mkState (.one "mean") none none)
    ⟨⟨true, [0], none⟩, [⟨"v", .num, [Val.num 1]⟩]⟩ rngZero).2 _ .notFitted
    ?_ ?_ ?_
  · with_unfolding_all decide
  · intro c hc; cases hc
  · intro hc; cases hc

/-! ## List and frame helper lemmas -/

/-- The value of `getD` below the length is the element itself. -/
theorem getD_lt (l : List Val) (i : Nat) (h : i < l.length) :
    l.getD i Val.na = l[i] := by
  rw [List.getD_eq_getElem?_getD, List.getElem?_eq_getElem h]
  rfl

/-- The value of `getD` below the length is a member. -/
theorem getD_mem_of_lt (l : List Val) (i : Nat) (h : i < l.length) :
    l.getD i Val.na ∈ l := by
  rw [getD_lt l i h]
  exact List.getElem_mem h

/-- Positional description of a `range`-map list. -/
theorem getD_range_map (f : Nat → Val) (n i : Nat) (h : i < n) :
    ((List.range n).map f).getD i Val.na = f i := by
  rw [List.getD_eq_getElem?_getD, List.getElem?_map, List.getElem?_range h]
  rfl

/-- Positional description of a mapped list. -/
theorem getD_map_lt (g : Val → Val) (v : List Val) (i : Nat) (h : i < v.length) :
    (v.map g).getD i Val.na = g (v.getD i Val.na) := by
  rw [List.getD_eq_getElem?_getD, List.getElem?_map, List.getElem?_eq_getElem h,
    getD_lt v i h]
  rfl

/-- A column has no missing entries iff every entry is observed. -/
theorem naCount_eq_zero (l : List Val) :
    naCount l = 0 ↔ ∀ x ∈ l, isNa x = false := by
  unfold naCount
  rw [List.length_eq_zero, List.filter_eq_nil_iff]
  constructor
  · intro h x hx
    have := h x hx
    simpa using this
  · intro h x hx
    simp [h x hx]

/-- Observed values are not missing. -/
theorem obs_not_na (vs : List Val) (v : Val) (h : v ∈ obs vs) : isNa v = false := by
  unfold obs at h
  have := (List.mem_filter.mp h).2
  simpa using this

/-- A not-all-missing column has a nonempty observation list. -/
theorem obs_ne_nil (vs : List Val) (h : allNa vs = false) : obs vs ≠ [] := by
  intro hnil
  unfold allNa at h
  rw [List.all_eq_false] at h
  obtain ⟨x, hx, hnx⟩ := h
  have hxo : x ∈ obs vs := List.mem_filter.mpr ⟨hx, by simpa using hnx⟩
  rw [hnil] at hxo
  cases hxo

/-- The mode-selection fold stays inside a fixed carrier. -/
theorem foldl_mode_mem (vs : List Val) (S : List Val) :
    ∀ (l : List Val) (acc : Val), acc ∈ S → (∀ x ∈ l, x ∈ S) →
      (l.foldl (fun best x => if countOcc vs x > countOcc vs best then x else best) acc) ∈ S := by
  intro l
  induction l with
  | nil => intro acc h _; exact h
  | cons a l ih =>
      intro acc h hl
      rw [List.foldl_cons]
      refine ih _ ?_ (fun x hx => hl x (List.mem_cons_of_mem _ hx))
      by_cases hc : countOcc vs a > countOcc vs acc
      · rw [if_pos hc]
        exact hl a (List.mem_cons_self _ _)
      · rw [if_neg hc]
        exact h

/-- The learned mode is one of the values it was learned from. -/
theorem modeOf_mem (vs : List Val) (h : vs ≠ []) : modeOf vs ∈ vs := by
  cases vs with
  | nil => exact absurd rfl h
  | cons v rest =>
      simp only [modeOf]
      exact foldl_mode_mem _ _ rest v (List.mem_cons_self _ _)
        (fun x hx => List.mem_cons_of_mem _ hx)

/-- A successful column lookup returns a member column carrying the
requested name. -/
theorem findCol_mem_names (X : Frame) (c : String) (col : Column)
    (h : X.findCol c = some col) : c ∈ X.colNames ∧ col.name = c ∧ col ∈ X.cols := by
  have hmem := List.mem_of_find?_eq_some h
  have hp := List.find?_some h
  have hname : col.name = c := by simpa using hp
  exact ⟨hname ▸ List.mem_map_of_mem (·.name) hmem, hname, hmem⟩

/-- Lookup of an absent name fails. -/
theorem findCol_none (X : Frame) (c : String) (h : ¬ c ∈ X.colNames) :
    X.findCol c = none := by
  unfold Frame.findCol
  rw [List.find?_eq_none]
  intro col hcol hp
  have hname : col.name = c := by simpa using hp
  exact h (hname ▸ List.mem_map_of_mem (·.name) hcol)

/-- Lookup of a present name succeeds. -/
theorem findCol_some_of_mem (X : Frame) (c : String) (h : c ∈ X.colNames) :
    ∃ col, X.findCol c = some col ∧ col.name = c := by
  cases hf : X.findCol c with
  | some col => exact ⟨col, rfl, (findCol_mem_names X c col hf).2.1⟩
  | none =>
      unfold Frame.findCol at hf
      rw [List.find?_eq_none] at hf
      obtain ⟨col, hcol, hname⟩ := List.mem_map.mp h
      exact absurd (by simp [hname] : (decide (col.name = c)) = true)
        (by simpa using hf col hcol)

/-- The values of a found column. -/
theorem colVals_eq_of_findCol (X : Frame) (c : String) (col : Column)
    (h : X.findCol c = some col) : X.colVals c = col.vals := by
  unfold Frame.colVals
  rw [h]

/-- The values of an absent column are empty. -/
theorem colVals_nil_of_not_mem (X : Frame) (c : String) (h : ¬ c ∈ X.colNames) :
    X.colVals c = [] := by
  unfold Frame.colVals
  rw [findCol_none X c h]

/-- Lookup by name commutes with a name-preserving column map. -/
theorem find?_map_name_preserving (g : Column → Column)
    (hg : ∀ col, (g col).name = col.name) (c : String) :
    ∀ cols : List Column,
      (cols.map g).find? (fun col => col.name = c)
        = (cols.find? (fun col => col.name = c)).map g := by
  intro cols
  induction cols with
  | nil => rfl
  | cons col rest ih =>
      rw [List.map_cons]
      by_cases hc : col.name = c
      · rw [List.find?_cons_of_pos _ (by simp [hg, hc]),
          List.find?_cons_of_pos _ (by simp [hc])]
        rfl
      · rw [List.find?_cons_of_neg _ (by simp [hg, hc]),
          List.find?_cons_of_neg _ (by simp [hc]), ih]

/-- Setting a column keeps the column names. -/
theorem setCol_colNames (X : Frame) (c : String) (vs : List Val) :
    (X.setCol c vs).colNames = X.colNames := by
  unfold Frame.setCol Frame.colNames
  rw [List.map_map]
  apply List.map_congr_left
  intro col _
  by_cases hc : col.name = c <;> simp [hc]

/-- Setting a column keeps the index. -/
theorem setCol_index (X : Frame) (c : String) (vs : List Val) :
    (X.setCol c vs).index = X.index := rfl

/-- Setting a present column overwrites exactly its values. -/
theorem colVals_setCol_self (X : Frame) (c : String) (vs : List Val)
    (h : c ∈ X.colNames) : (X.setCol c vs).colVals c = vs := by
  obtain ⟨col, hf, hname⟩ := findCol_some_of_mem X c h
  unfold Frame.colVals Frame.findCol Frame.setCol
  rw [find?_map_name_preserving _
    (fun col => by by_cases hc : col.name = c <;> simp [hc]) c]
  unfold Frame.findCol at hf
  rw [hf]
  simp [hname]

/-- Setting a column leaves the other columns' values unchanged. -/
theorem colVals_setCol_ne (X : Frame) (c c' : String) (vs : List Val)
    (h : ¬ c' = c) : (X.setCol c vs).colVals c' = X.colVals c' := by
  unfold Frame.colVals Frame.findCol Frame.setCol
  rw [find?_map_name_preserving _
    (fun col => by by_cases hc : col.name = c <;> simp [hc]) c']
  cases hf : X.cols.find? (fun col => (col.name = c' : Bool)) with
  | none => rfl
  | some col =>
      have hname : col.name = c' := by simpa using List.find?_some hf
      simp [hname, h]

/-- Sorting is the identity on a monotone index. -/
theorem sortRows_of_mono (X : Frame) (h : monoLe X.index.keys = true) :
    sortRows X = X := by
  unfold sortRows
  rw [h]
  rfl

/-- Sorting keeps the column names. -/
theorem sortRows_colNames (X : Frame) : (sortRows X).colNames = X.colNames := by
  unfold sortRows
  split
  · rfl
  · unfold Frame.colNames
    dsimp only
    rw [List.map_map]
    exact List.map_congr_left (fun col _ => rfl)

/-- Sorting keeps the index datetime flag. -/
theorem sortRows_isDt (X : Frame) : (sortRows X).index.isDt = X.index.isDt := by
  unfold sortRows
  split
  · rfl
  · rfl

/-- Every value of a sorted column is an original value or the `getD`
default. -/
theorem sortRows_colVals_mem (X : Frame) (c : String) (v : Val)
    (h : v ∈ (sortRows X).colVals c) : v ∈ X.colVals c ∨ v = Val.na := by
  unfold sortRows at h
  split at h
  · exact .inl h
  · unfold Frame.colVals Frame.findCol at h ⊢
    dsimp only at h
    rw [find?_map_name_preserving
      (fun col =>
        { col with vals := (argsortKeys X.index.keys).map (fun i => col.vals.getD i Val.na) })
      (fun col => rfl) c] at h
    cases hf : X.cols.find? (fun col => (col.name = c : Bool)) with
    | none =>
        rw [hf] at h
        cases h
    | some col =>
        rw [hf] at h
        simp only [Option.map_some'] at h
        obtain ⟨i, _, rfl⟩ := List.mem_map.mp h
        by_cases hi : i < col.vals.length
        · exact .inl (getD_mem_of_lt _ _ hi)
        · right
          exact List.getD_eq_default _ _ (by omega)

/-- Sorting preserves the numeric-or-missing column shape. -/
theorem sortRows_colVals_numOrNa (X : Frame) (c : String)
    (h : numOrNa (X.colVals c) = true) :
    numOrNa ((sortRows X).colVals c) = true := by
  unfold numOrNa at h ⊢
  rw [List.all_eq_true] at h ⊢
  intro v hv
  rcases sortRows_colVals_mem X c v hv with hm | rfl
  · exact h v hm
  · rfl

/-! ## Unique index labels and the sorted index -/

/-- In a strictly increasing key list, the head is below every later key. -/
theorem monoLt_head_lt (a : ℤ) (l : List ℤ) (h : monoLt (a :: l) = true) :
    ∀ x ∈ l, a < x := by
  induction l generalizing a with
  | nil =>
      intro x hx
      cases hx
  | cons b bs ih =>
      intro x hx
      unfold monoLt at h
      rw [Bool.and_eq_true] at h
      rcases List.mem_cons.mp hx with rfl | hx'
      · exact of_decide_eq_true h.1
      · exact lt_trans (of_decide_eq_true h.1) (ih b h.2 x hx')

/-- The tail of a strictly increasing key list is strictly increasing. -/
theorem monoLt_tail (a : ℤ) (l : List ℤ) (h : monoLt (a :: l) = true) :
    monoLt l = true := by
  cases l with
  | nil => rfl
  | cons b bs =>
      unfold monoLt at h
      rw [Bool.and_eq_true] at h
      exact h.2

/-- Strictly increasing keys are pairwise distinct. -/
theorem monoLt_nodup (l : List ℤ) (h : monoLt l = true) : l.Nodup := by
  induction l with
  | nil => exact List.nodup_nil
  | cons a as ih =>
      rw [List.nodup_cons]
      refine ⟨?_, ih (monoLt_tail a as h)⟩
      intro hmem
      exact lt_irrefl a (monoLt_head_lt a as h a hmem)

/-- Strictly increasing keys are monotone nondecreasing. -/
theorem monoLe_of_monoLt (l : List ℤ) (h : monoLt l = true) : monoLe l = true := by
  induction l with
  | nil => rfl
  | cons a as ih =>
      cases as with
      | nil => rfl
      | cons b bs =>
          unfold monoLt at h
          unfold monoLe
          rw [Bool.and_eq_true] at h ⊢
          exact ⟨decide_eq_true (le_of_lt (of_decide_eq_true h.1)), ih h.2⟩

/-- Ordered insertion permutes the extended list. -/
theorem insertLe_perm (le : α → α → Bool) (a : α) (l : List α) :
    (insertLe le a l).Perm (a :: l) := by
  induction l with
  | nil => exact List.Perm.refl _
  | cons b bs ih =>
      unfold insertLe
      split
      · exact List.Perm.refl _
      · exact (ih.cons b).trans (List.Perm.swap a b bs)

/-- Insertion sort permutes its input. -/
theorem isortLe_perm (le : α → α → Bool) (l : List α) : (isortLe le l).Perm l := by
  induction l with
  | nil => exact List.Perm.refl _
  | cons a as ih => exact (insertLe_perm le a (isortLe le as)).trans (ih.cons a)

/-- The argsort row permutation is a permutation of the row positions. -/
theorem argsortKeys_perm (keys : List ℤ) :
    (argsortKeys keys).Perm (List.range keys.length) := by
  unfold argsortKeys
  have h := (isortLe_perm
    (fun p q : Nat × ℤ =>
      if p.2 < q.2 then true else if p.2 = q.2 then decide (p.1 ≤ q.1) else false)
    keys.enum).map Prod.fst
  rw [List.enum_map_fst] at h
  exact h

/-- Reading a list back at all its positions reproduces the list. -/
theorem range_map_getD_self (l : List ℤ) (d : ℤ) :
    (List.range l.length).map (fun i => l.getD i d) = l := by
  refine List.ext_getElem (by rw [List.length_map, List.length_range]) ?_
  intro i h1 h2
  rw [List.getElem_map, List.getElem_range]
  exact List.getD_eq_getElem l d h2

/-- The sorted index keys are a permutation of the original keys. -/
theorem sortedKeys_perm (keys : List ℤ) :
    ((argsortKeys keys).map (fun i => keys.getD i 0)).Perm keys := by
  have h := (argsortKeys_perm keys).map (fun i => keys.getD i 0)
  rwa [range_map_getD_self keys 0] at h

/-- With pairwise-distinct index keys and a column no longer than the
index, every row's label occurs exactly once, so the label-based fill
assignment is clean. -/
theorem locUnique_of_nodup (keys : List ℤ) (v : List Val)
    (hnodup : keys.Nodup) (hlen : v.length ≤ keys.length) :
    locUnique keys v = true := by
  unfold locUnique
  rw [List.all_eq_true]
  intro i hi
  have hi' : i < keys.length := lt_of_lt_of_le (List.mem_range.mp hi) hlen
  have hcount : keys.count (keys.getD i 0) = 1 := by
    rw [List.getD_eq_getElem keys 0 hi']
    exact List.count_eq_one_of_mem hnodup (List.getElem_mem hi')
  rw [Bool.or_eq_true, beq_iff_eq]
  exact Or.inr hcount

/-- Sorting a frame with pairwise-distinct index keys keeps every present
column's label-based fill assignment clean. -/
theorem sortRows_locUnique (X : Frame) (c : String)
    (hk : X.index.keys.Nodup)
    (hlen : (X.colVals c).length ≤ X.index.keys.length) :
    locUnique (sortRows X).index.keys ((sortRows X).colVals c) = true := by
  unfold sortRows
  split
  · exact locUnique_of_nodup _ _ hk hlen
  · have hknodup : ((argsortKeys X.index.keys).map
        (fun i => X.index.keys.getD i 0)).Nodup :=
      ((sortedKeys_perm X.index.keys).nodup_iff).mpr hk
    unfold Frame.colVals Frame.findCol
    dsimp only
    rw [find?_map_name_preserving
      (fun col =>
        { col with vals := (argsortKeys X.index.keys).map (fun i => col.vals.getD i Val.na) })
      (fun col => rfl) c]
    cases hf : X.cols.find? (fun col => (col.name = c : Bool)) with
    | none =>
        simp [locUnique]
    | some col =>
        simp only [Option.map_some']
        refine locUnique_of_nodup _ _ hknodup ?_
        rw [List.length_map, List.length_map]

/-! ## Per-strategy fill lemmas -/

/-- A scalar fill keeps the length. -/
theorem scalarFill_length (fv : Val) (v : List Val) :
    (scalarFill fv v).length = v.length := List.length_map _ _

/-- Positional description of a scalar fill. -/
theorem scalarFill_getD (fv : Val) (v : List Val) (i : Nat) (h : i < v.length) :
    (scalarFill fv v).getD i Val.na
      = if isNa (v.getD i Val.na) then fv else v.getD i Val.na := by
  unfold scalarFill
  rw [getD_map_lt _ _ _ h]

/-- A scalar fill with an observed value leaves no missing entry. -/
theorem scalarFill_naCount (fv : Val) (v : List Val) (h : isNa fv = false) :
    naCount (scalarFill fv v) = 0 := by
  rw [naCount_eq_zero]
  intro x hx
  obtain ⟨y, _, rfl⟩ := List.mem_map.mp hx
  by_cases hna : isNa y = true
  · simp [hna, h]
  · simp only [Bool.not_eq_true] at hna
    simp [hna]

/-- A random fill keeps the length. -/
theorem randomFill_length (rng : RNG) (c : String) (arr v : List Val) :
    (randomFill rng c arr v).length = v.length := by
  unfold randomFill
  rw [List.length_map, List.length_range]

/-- Positional description of a random fill. -/
theorem randomFill_getD (rng : RNG) (c : String) (arr v : List Val) (i : Nat)
    (h : i < v.length) :
    (randomFill rng c arr v).getD i Val.na
      = if isNa (v.getD i Val.na)
        then arr.getD (rng.choice c (naRank v i) % arr.length) Val.na
        else v.getD i Val.na := by
  unfold randomFill
  rw [getD_range_map _ _ _ h]

/-- A random fill from a nonempty pool of observed values leaves no
missing entry. -/
theorem randomFill_naCount (rng : RNG) (c : String) (arr v : List Val)
    (harr : arr ≠ []) (hobs : ∀ x ∈ arr, isNa x = false) :
    naCount (randomFill rng c arr v) = 0 := by
  rw [naCount_eq_zero]
  intro x hx
  unfold randomFill at hx
  obtain ⟨i, _, rfl⟩ := List.mem_map.mp hx
  dsimp only
  have hlen : 0 < arr.length := List.length_pos.mpr harr
  by_cases hna : isNa (v.getD i Val.na) = true
  · rw [if_pos hna]
    exact hobs _ (getD_mem_of_lt _ _ (Nat.mod_lt _ hlen))
  · rw [if_neg hna]
    simpa using hna

/-- A normal-sample fill keeps the length. -/
theorem normFill_length (rng : RNG) (c : String) (v : List Val) :
    (normFill rng c v).length = v.length := by
  unfold normFill
  rw [List.length_map, List.length_range]

/-- Positional description of a normal-sample fill. -/
theorem normFill_getD (rng : RNG) (c : String) (v : List Val) (i : Nat)
    (h : i < v.length) :
    (normFill rng c v).getD i Val.na
      = if isNa (v.getD i Val.na)
        then Val.num (rng.gauss c (naRank v i))
        else v.getD i Val.na := by
  unfold normFill
  rw [getD_range_map _ _ _ h]

/-- A normal-sample fill leaves no missing entry. -/
theorem normFill_naCount (rng : RNG) (c : String) (v : List Val) :
    naCount (normFill rng c v) = 0 := by
  rw [naCount_eq_zero]
  intro x hx
  unfold normFill at hx
  obtain ⟨i, _, rfl⟩ := List.mem_map.mp hx
  dsimp only
  by_cases hna : isNa (v.getD i Val.na) = true
  · rw [if_pos hna]
    rfl
  · rw [if_neg hna]
    simpa using hna

/-- Interpolation keeps the length (linear). -/
theorem interpLinear_length (v : List Val) :
    (interpLinear v).length = v.length := by
  unfold interpLinear
  rw [List.length_map, List.length_range]

/-- Interpolation keeps the length (time). -/
theorem interpTime_length (idx : List ℤ) (v : List Val) :
    (interpTime idx v).length = v.length := by
  unfold interpTime
  rw [List.length_map, List.length_range]

/-- Interpolation does not change an observed entry (linear). -/
theorem interpLinAt_not_na (v : List Val) (i : Nat)
    (h : isNa (v.getD i Val.na) = false) :
    interpLinAt v i = v.getD i Val.na := by
  have h' : ¬ isNa (v.getD i Val.na) = true := by
    rw [h]
    simp
  unfold interpLinAt
  dsimp only
  rw [if_neg h']

/-- Interpolation does not change an observed entry (time). -/
theorem interpTimeAt_not_na (idx : List ℤ) (v : List Val) (i : Nat)
    (h : isNa (v.getD i Val.na) = false) :
    interpTimeAt idx v i = v.getD i Val.na := by
  have h' : ¬ isNa (v.getD i Val.na) = true := by
    rw [h]
    simp
  unfold interpTimeAt
  dsimp only
  rw [if_neg h']

/-- There is no earlier observed numeric value iff every earlier entry is
non-numeric. -/
theorem prevObs_eq_none_iff (v : List Val) (i : Nat) :
    prevObs v i = none ↔ ∀ j < i, num? (v.getD j Val.na) = none := by
  unfold prevObs
  rw [List.head?_eq_none_iff, List.filterMap_eq_nil_iff]
  constructor
  · intro h j hj
    exact Option.map_eq_none'.mp
      (h j (by rw [List.mem_reverse]; exact List.mem_range.mpr hj))
  · intro h j hj
    rw [Option.map_eq_none']
    exact h j (List.mem_range.mp (List.mem_reverse.mp hj))

/-- A linearly interpolated entry is missing iff the original entry is
missing and has no earlier observed numeric value. -/
theorem interpLinear_na_iff (v : List Val) (i : Nat) (hi : i < v.length) :
    isNa ((interpLinear v).getD i Val.na) = true ↔
      isNa (v.getD i Val.na) = true ∧ prevObs v i = none := by
  unfold interpLinear
  rw [getD_range_map _ _ _ hi]
  unfold interpLinAt
  dsimp only
  by_cases hna : isNa (v.getD i Val.na) = true
  · rw [if_pos hna]
    cases hp : prevObs v i with
    | none =>
        exact ⟨fun _ => ⟨hna, rfl⟩, fun _ => rfl⟩
    | some jq =>
        cases hn : nextObs v i with
        | none =>
            exact ⟨fun hh => Bool.noConfusion hh, fun hh => Option.noConfusion hh.2⟩
        | some kq =>
            exact ⟨fun hh => Bool.noConfusion hh, fun hh => Option.noConfusion hh.2⟩
  · rw [if_neg hna]
    exact ⟨fun hh => absurd hh hna, fun hh => absurd hh.1 hna⟩

/-- A time-interpolated entry is missing iff the original entry is missing
and has no earlier observed numeric value. -/
theorem interpTime_na_iff (idx : List ℤ) (v : List Val) (i : Nat) (hi : i < v.length) :
    isNa ((interpTime idx v).getD i Val.na) = true ↔
      isNa (v.getD i Val.na) = true ∧ prevObs v i = none := by
  unfold interpTime
  rw [getD_range_map _ _ _ hi]
  unfold interpTimeAt
  dsimp only
  by_cases hna : isNa (v.getD i Val.na) = true
  · rw [if_pos hna]
    cases hp : prevObs v i with
    | none =>
        exact ⟨fun _ => ⟨hna, rfl⟩, fun _ => rfl⟩
    | some jq =>
        cases hn : nextObs v i with
        | none =>
            exact ⟨fun hh => Bool.noConfusion hh, fun hh => Option.noConfusion hh.2⟩
        | some kq =>
            exact ⟨fun hh => Bool.noConfusion hh, fun hh => Option.noConfusion hh.2⟩
  · rw [if_neg hna]
    exact ⟨fun hh => absurd hh hna, fun hh => absurd hh.1 hna⟩

/-- On a numeric-or-missing column, an entry that is missing and has no
earlier observed value forces every earlier entry to be missing with no
earlier observed value. -/
theorem na_gap_propagates (v : List Val) (hwf : numOrNa v = true)
    (i j : Nat) (hij : i ≤ j) (hj : j < v.length)
    (hvj : isNa (v.getD j Val.na) = true) (hprevj : prevObs v j = none) :
    isNa (v.getD i Val.na) = true ∧ prevObs v i = none := by
  rw [prevObs_eq_none_iff] at hprevj
  have hi : i < v.length := lt_of_le_of_lt hij hj
  constructor
  · rcases Nat.lt_or_ge i j with hlt | hge
    · have hnone := hprevj i hlt
      unfold numOrNa at hwf
      rw [List.all_eq_true] at hwf
      have hx := hwf _ (getD_mem_of_lt v i hi)
      rw [hnone] at hx
      simpa using hx
    · have : i = j := le_antisymm hij hge
      rw [this]
      exact hvj
  · rw [prevObs_eq_none_iff]
    intro k hk
    exact hprevj k (lt_of_lt_of_le hk hij)

/-- Linear interpolation on a numeric-or-missing column leaves missing
entries only in a leading block. -/
theorem interpLinear_naLeading (v : List Val) (hwf : numOrNa v = true) :
    naLeading (interpLinear v) := by
  intro i j hij hj hnaj
  have hj' : j < v.length := by
    rw [interpLinear_length v] at hj
    exact hj
  have hi' : i < v.length := lt_of_le_of_lt hij hj'
  rw [interpLinear_na_iff v j hj'] at hnaj
  obtain ⟨h1, h2⟩ := na_gap_propagates v hwf i j hij hj' hnaj.1 hnaj.2
  rw [interpLinear_na_iff v i hi']
  exact ⟨h1, h2⟩

/-- Time interpolation on a numeric-or-missing column leaves missing
entries only in a leading block. -/
theorem interpTime_naLeading (idx : List ℤ) (v : List Val) (hwf : numOrNa v = true) :
    naLeading (interpTime idx v) := by
  intro i j hij hj hnaj
  have hj' : j < v.length := by
    rw [interpTime_length idx v] at hj
    exact hj
  have hi' : i < v.length := lt_of_le_of_lt hij hj'
  rw [interpTime_na_iff idx v j hj'] at hnaj
  obtain ⟨h1, h2⟩ := na_gap_propagates v hwf i j hij hj' hnaj.1 hnaj.2
  rw [interpTime_na_iff idx v i hi']
  exact ⟨h1, h2⟩

/-- Every strategy's fill keeps the column length. -/
theorem fillValsFun_length (rng : RNG) (idx : List ℤ) (c : String) (st : ColStat)
    (v : List Val) : (fillValsFun rng idx c st v).length = v.length := by
  unfold fillValsFun
  split_ifs
  · exact scalarFill_length _ _
  · exact scalarFill_length _ _
  · split
    · exact randomFill_length _ _ _ _
    · rfl
  · exact interpLinear_length _
  · exact interpTime_length _ _
  · exact normFill_length _ _ _
  · rfl

/-- Every strategy's fill leaves observed entries unchanged at their
positions. -/
theorem fillValsFun_preserve (rng : RNG) (idx : List ℤ) (c : String) (st : ColStat)
    (v : List Val) (i : Nat) (h : isNa (v.getD i Val.na) = false) :
    (fillValsFun rng idx c st v).getD i Val.na = v.getD i Val.na := by
  by_cases hi : i < v.length
  · unfold fillValsFun
    split_ifs
    · rw [scalarFill_getD _ _ _ hi, h]
      simp
    · rw [scalarFill_getD _ _ _ hi, h]
      simp
    · split
      · rw [randomFill_getD _ _ _ _ _ hi, h]
        simp
      · rfl
    · unfold interpLinear
      rw [getD_range_map _ _ _ hi]
      exact interpLinAt_not_na v i h
    · unfold interpTime
      rw [getD_range_map _ _ _ hi]
      exact interpTimeAt_not_na idx v i h
    · rw [normFill_getD _ _ _ _ hi, h]
      simp
    · rfl
  · have hna : v.getD i Val.na = Val.na := List.getD_eq_default _ _ (by omega)
    rw [hna] at h
    simp [isNa] at h

/-! ## Fit-side lemmas -/

/-- The keys of a resolved strategy assignment are exactly the remaining
columns. -/
theorem checkFitStrat_keys (req : StratReq) (ocols ncols : List String)
    (strats : List (String × String))
    (h : checkFitStrat req ocols ncols = .ok strats) :
    strats.map Prod.fst = ncols := by
  unfold checkFitStrat at h
  cases req with
  | one s =>
      dsimp only at h
      by_cases hc : registryNames.contains s = true
      · rw [if_pos hc] at h
        cases h
        rw [List.map_map, show (Prod.fst ∘ fun c : String => (c, s)) = id from rfl, List.map_id]
      · rw [if_neg hc] at h
        cases h
  | byCol m =>
      dsimp only at h
      by_cases h1 : (m.any fun p => !(ocols.contains p.1)) = true
      · rw [if_pos h1] at h
        cases h
      · rw [if_neg h1] at h
        by_cases h2 : (m.any fun p => !(registryNames.contains p.2)) = true
        · rw [if_pos h2] at h
          cases h
        · rw [if_neg h2] at h
          cases h
          rw [List.map_map,
            show (Prod.fst ∘ fun c : String => (c, (List.lookup c m).getD "default")) = id
              from rfl, List.map_id]

/-- A successful `fit` assigns exactly the dropped-column record, the
resolved strategy assignment, and the learned statistics. -/
theorem fit_ok_spec (s s' : TSState) (X : Frame) (h : fit s X = (s', none)) :
    checkMissingness X = true ∧
    ∃ strats, checkFitStrat s.strategy X.colNames (nanColDropper X).1.colNames = .ok strats ∧
      s' = { s with nc := some (nanColDropper X).2, strats := some strats,
                    statistics := some (learnedStats X strats) } := by
  unfold fit at h
  split at h
  · cases h
  · rename_i hmiss
    split at h
    · cases h
    · dsimp only at h
      split at h
      · cases h
      · rename_i strats heq
        cases h
        refine ⟨?_, strats, heq, rfl⟩
        simpa using hmiss

/-- Membership description of the learned statistics. -/
theorem learnedStats_mem (X : Frame) (strats : List (String × String))
    (c : String) (st : ColStat) (h : (c, st) ∈ learnedStats X strats) :
    ∃ f, (c, f) ∈ strats ∧
      st = (match X.findCol c with
            | some col => ColStat.mk (learnCol f col).1 (learnCol f col).2
            | none => ColStat.mk Param.noParam f) := by
  unfold learnedStats at h
  obtain ⟨⟨c', f⟩, hp, heq⟩ := List.mem_map.mp h
  rw [Prod.mk.injEq] at heq
  obtain ⟨rfl, rfl⟩ := heq
  exact ⟨f, hp, rfl⟩

/-- The kept columns are a sublist of the original columns (names). -/
theorem nanColDropper_names_sublist (X : Frame) :
    List.Sublist (nanColDropper X).1.colNames X.colNames := by
  unfold nanColDropper Frame.colNames
  exact (List.filter_sublist _).map _

/-- A kept column is an original column that is not all-missing. -/
theorem nanColDropper_mem (X : Frame) (col : Column)
    (h : col ∈ (nanColDropper X).1.cols) :
    col ∈ X.cols ∧ allNa col.vals = false := by
  unfold nanColDropper at h
  have hm := List.mem_filter.mp h
  exact ⟨hm.1, by simpa using hm.2⟩

/-- A `"mean"`-resolved learning result stores the mean of the observed
numeric values as a scalar. -/
theorem learnCol_mean_param (f : String) (col : Column)
    (h : (learnCol f col).2 = "mean") :
    (learnCol f col).1 = Param.scalar (Val.num (qmean (obsQ col.vals))) := by
  have h' : resolveStrat f col = "mean" := h
  show paramFor (resolveStrat f col) col = _
  rw [h']
  rfl

/-- A `"median"`-resolved learning result stores the median of the
observed numeric values as a scalar. -/
theorem learnCol_median_param (f : String) (col : Column)
    (h : (learnCol f col).2 = "median") :
    (learnCol f col).1 = Param.scalar (Val.num (qmedian (obsQ col.vals))) := by
  have h' : resolveStrat f col = "median" := h
  show paramFor (resolveStrat f col) col = _
  rw [h']
  rfl

/-- A `"mode"`-resolved learning result stores the learned mode of the
observed values. -/
theorem learnCol_mode_param (f : String) (col : Column)
    (h : (learnCol f col).2 = "mode") :
    (learnCol f col).1 = Param.scalar (modeOf (obs col.vals)) := by
  have h' : resolveStrat f col = "mode" := h
  show paramFor (resolveStrat f col) col = _
  rw [h']
  rfl

/-- A `"random"`-resolved learning result stores the observed values. -/
theorem learnCol_random_param (f : String) (col : Column)
    (h : (learnCol f col).2 = "random") :
    (learnCol f col).1 = Param.arr (obs col.vals) := by
  have h' : resolveStrat f col = "random" := h
  show paramFor (resolveStrat f col) col = _
  rw [h']
  rfl

/-! ## Fill-loop lemmas -/

/-- The per-column fill succeeds whenever a `random` strategy carries a
nonempty pool and every missing row's label is unique, and then computes
`fillValsFun`. -/
theorem fillVals_ok (rng : RNG) (idx : List ℤ) (c : String) (st : ColStat)
    (v : List Val)
    (h : st.strategy = "random" → ∀ a, st.param = Param.arr a → a ≠ [])
    (hloc : locUnique idx v = true) :
    fillVals rng idx c st v = .ok (fillValsFun rng idx c st v) := by
  unfold fillVals
  by_cases hs : st.strategy = "random"
  · rw [if_pos hs]
    split
    · rename_i a ha
      rw [if_neg (h hs a ha), if_pos hloc]
    · rfl
  · rw [if_neg hs]
    by_cases hn : st.strategy = "norm"
    · rw [if_pos hn, if_pos hloc]
    · rw [if_neg hn]

/-- Columns not named in the statistics are untouched by the fill loop,
which also preserves the column names and the index. -/
theorem fillLoop_pres (rng : RNG) (idx : List ℤ) :
    ∀ (stats : List (String × ColStat)) (X Y : Frame) (c : String),
      ¬ c ∈ stats.map Prod.fst → fillLoop rng idx stats X = .ok Y →
      Y.colVals c = X.colVals c ∧ Y.colNames = X.colNames ∧ Y.index = X.index := by
  intro stats
  induction stats with
  | nil =>
      intro X Y c _ h
      cases h
      exact ⟨rfl, rfl, rfl⟩
  | cons p rest ih =>
      intro X Y c hc h
      unfold fillLoop at h
      split at h
      · cases h
      · split at h
        · cases h
        · rename_i col hcol vs hvs
          have hcne : ¬ c = p.1 := by
            intro hh
            refine hc ?_
            rw [List.map_cons, hh]
            exact List.mem_cons_self _ _
          have hrest : ¬ c ∈ rest.map Prod.fst := by
            intro hh
            refine hc ?_
            rw [List.map_cons]
            exact List.mem_cons_of_mem _ hh
          obtain ⟨h1, h2, h3⟩ := ih _ _ _ hrest h
          refine ⟨?_, ?_, ?_⟩
          · rw [h1, colVals_setCol_ne _ _ _ _ hcne]
          · rw [h2, setCol_colNames]
          · rw [h3, setCol_index]

/-- Under no-duplicate statistics keys whose columns are all present,
whose `random` pools are nonempty, and whose missing rows carry unique
index labels, the fill loop succeeds and fills each named column with
its strategy's fill of the input column. -/
theorem fillLoop_ok (rng : RNG) (idx : List ℤ) :
    ∀ (stats : List (String × ColStat)) (X : Frame),
      (stats.map Prod.fst).Nodup →
      (∀ p ∈ stats, p.1 ∈ X.colNames) →
      (∀ p ∈ stats, p.2.strategy = "random" → ∀ a, p.2.param = Param.arr a → a ≠ []) →
      (∀ p ∈ stats, locUnique idx (X.colVals p.1) = true) →
      ∃ Y, fillLoop rng idx stats X = .ok Y ∧
        Y.colNames = X.colNames ∧ Y.index = X.index ∧
        (∀ p ∈ stats, Y.colVals p.1 = fillValsFun rng idx p.1 p.2 (X.colVals p.1)) := by
  intro stats
  induction stats with
  | nil =>
      intro X _ _ _ _
      exact ⟨X, rfl, rfl, rfl, fun p hp => absurd hp (List.not_mem_nil p)⟩
  | cons p rest ih =>
      intro X hnodup hmem hrand hloc
      obtain ⟨col, hcol, hname⟩ := findCol_some_of_mem X p.1 (hmem p (List.mem_cons_self _ _))
      have hvals : X.colVals p.1 = col.vals := colVals_eq_of_findCol _ _ _ hcol
      have hlocp : locUnique idx col.vals = true := by
        rw [← hvals]
        exact hloc p (List.mem_cons_self _ _)
      have hfv : fillVals rng idx p.1 p.2 col.vals
          = .ok (fillValsFun rng idx p.1 p.2 col.vals) :=
        fillVals_ok _ _ _ _ _ (hrand p (List.mem_cons_self _ _)) hlocp
      rw [List.map_cons] at hnodup
      have hn1 : ¬ p.1 ∈ rest.map Prod.fst := (List.nodup_cons.mp hnodup).1
      have hn2 : (rest.map Prod.fst).Nodup := (List.nodup_cons.mp hnodup).2
      obtain ⟨Y, hY, hN, hI, hvalsY⟩ := ih (X.setCol p.1 (fillValsFun rng idx p.1 p.2 col.vals))
        hn2
        (fun q hq => by
          rw [setCol_colNames]
          exact hmem q (List.mem_cons_of_mem _ hq))
        (fun q hq => hrand q (List.mem_cons_of_mem _ hq))
        (fun q hq => by
          have hne : ¬ q.1 = p.1 :=
            fun hh => hn1 (hh ▸ List.mem_map_of_mem Prod.fst hq)
          rw [colVals_setCol_ne X p.1 q.1 _ hne]
          exact hloc q (List.mem_cons_of_mem _ hq))
      refine ⟨Y, ?_, ?_, ?_, ?_⟩
      · simp only [fillLoop, hcol, hfv]
        exact hY
      · rw [hN, setCol_colNames]
      · rw [hI, setCol_index]
      · intro q hq
        rcases List.mem_cons.mp hq with rfl | hq'
        · have hpres := (fillLoop_pres rng idx rest _ Y q.1 hn1 hY).1
          rw [hpres, colVals_setCol_self _ _ _ (hmem q (List.mem_cons_self _ _)), hvals]
        · rw [hvalsY q hq']
          congr 1
          exact colVals_setCol_ne _ _ _ _
            (fun hh => hn1 (hh ▸ List.mem_map_of_mem Prod.fst hq'))

/-- Inversion: when the fill loop succeeds, each named column of the
result is its strategy's fill of the corresponding input column. -/
theorem fillLoop_ok_colVals (rng : RNG) (idx : List ℤ) :
    ∀ (stats : List (String × ColStat)) (X Y : Frame),
      (stats.map Prod.fst).Nodup →
      fillLoop rng idx stats X = .ok Y →
      ∀ p ∈ stats, fillVals rng idx p.1 p.2 (X.colVals p.1) = .ok (Y.colVals p.1) := by
  intro stats
  induction stats with
  | nil =>
      intro X Y _ _ p hp
      exact absurd hp (List.not_mem_nil p)
  | cons p rest ih =>
      intro X Y hnodup h q hq
      unfold fillLoop at h
      split at h
      · cases h
      · rename_i col hcol
        split at h
        · cases h
        · rename_i vs hvs
          rw [List.map_cons] at hnodup
          have hn1 : ¬ p.1 ∈ rest.map Prod.fst := (List.nodup_cons.mp hnodup).1
          have hn2 : (rest.map Prod.fst).Nodup := (List.nodup_cons.mp hnodup).2
          rcases List.mem_cons.mp hq with rfl | hq'
          · have hpres := (fillLoop_pres rng idx rest _ Y q.1 hn1 h).1
            have hmem : q.1 ∈ X.colNames := (findCol_mem_names X q.1 col hcol).1
            rw [colVals_eq_of_findCol _ _ _ hcol, hvs, hpres,
              colVals_setCol_self _ _ _ hmem]
          · have hne : ¬ q.1 = p.1 :=
              fun hh => hn1 (hh ▸ List.mem_map_of_mem Prod.fst hq')
            have := ih _ _ hn2 h q hq'
            rw [colVals_setCol_ne _ _ _ _ hne] at this
            exact this

/-! ## Per-strategy consequences of the learned statistics -/

/-- The keys of the learned statistics are the assigned columns. -/
theorem learnedStats_keys (X : Frame) (strats : List (String × String)) :
    (learnedStats X strats).map Prod.fst = strats.map Prod.fst := by
  unfold learnedStats
  rw [List.map_map]
  exact List.map_congr_left (fun p _ => rfl)

/-- Each learned statistics entry comes from a found column via its
learning function. -/
theorem fitted_stats_shape (X : Frame) (strats : List (String × String))
    (hsub : ∀ c ∈ strats.map Prod.fst, c ∈ X.colNames)
    (p : String × ColStat) (h : p ∈ learnedStats X strats) :
    ∃ f col, X.findCol p.1 = some col ∧ col ∈ X.cols ∧
      p.2 = ColStat.mk (learnCol f col).1 (learnCol f col).2 := by
  obtain ⟨f, hf, hst⟩ := learnedStats_mem X strats p.1 p.2 (by rw [Prod.mk.eta]; exact h)
  have hc : p.1 ∈ X.colNames := hsub p.1 (List.mem_map_of_mem Prod.fst hf)
  obtain ⟨col, hcol, _⟩ := findCol_some_of_mem X p.1 hc
  rw [hcol] at hst
  exact ⟨f, col, hcol, (findCol_mem_names X p.1 col hcol).2.2, hst⟩

/-- The fill of a learned scalar-or-draw strategy leaves no missing entry
provided the learning column was not all-missing. -/
theorem fillValsFun_learnCol_naCount (rng : RNG) (idx : List ℤ) (c : String)
    (f : String) (col : Column) (v : List Val)
    (hobs : allNa col.vals = false)
    (hs : (learnCol f col).2 = "mean" ∨ (learnCol f col).2 = "median" ∨
          (learnCol f col).2 = "mode" ∨ (learnCol f col).2 = "random" ∨
          (learnCol f col).2 = "norm") :
    naCount (fillValsFun rng idx c (ColStat.mk (learnCol f col).1 (learnCol f col).2) v)
      = 0 := by
  rcases hs with hs | hs | hs | hs | hs
  · have hp := learnCol_mean_param f col hs
    simp [fillValsFun, hs, hp, paramScalar]
    exact scalarFill_naCount _ _ rfl
  · have hp := learnCol_median_param f col hs
    simp [fillValsFun, hs, hp, paramScalar]
    exact scalarFill_naCount _ _ rfl
  · have hp := learnCol_mode_param f col hs
    have hmode : isNa (modeOf (obs col.vals)) = false :=
      obs_not_na _ _ (modeOf_mem _ (obs_ne_nil _ hobs))
    simp [fillValsFun, hs, hp, paramScalar]
    exact scalarFill_naCount _ _ hmode
  · have hp := learnCol_random_param f col hs
    simp [fillValsFun, hs, hp]
    exact randomFill_naCount _ _ _ _ (obs_ne_nil _ hobs) (fun x hx => obs_not_na _ _ hx)
  · simp [fillValsFun, hs]
    exact normFill_naCount _ _ _

/-- The fill of a learned interpolation strategy leaves missing entries
only in a leading block of a numeric-or-missing column. -/
theorem fillValsFun_learnCol_naLeading (rng : RNG) (idx : List ℤ) (c : String)
    (f : String) (col : Column) (v : List Val)
    (hwf : numOrNa v = true)
    (hs : (learnCol f col).2 = "linear" ∨ (learnCol f col).2 = "time") :
    naLeading (fillValsFun rng idx c (ColStat.mk (learnCol f col).1 (learnCol f col).2) v) := by
  rcases hs with hs | hs
  · simp [fillValsFun, hs]
    exact interpLinear_naLeading v hwf
  · simp [fillValsFun, hs]
    exact interpTime_naLeading idx v hwf

/-- The spine of a `transform` call on a fitted engine and an
already-time-indexed input whose fill loop succeeds. -/
theorem transform_dt_ok (s : TSState) (X : Frame) (rng : RNG)
    (stats : List (String × ColStat)) (Y : Frame)
    (hstats : s.statistics = some stats)
    (hmiss : checkMissingness X = true)
    (hcols : colMismatchCheck s X = false)
    (hix : X.index.isDt = true)
    (hfl : fillLoop rng (sortRows X).index.keys stats (sortRows X) = .ok Y) :
    transform s X rng = (s, .ok Y) := by
  simp [transform, hmiss, hstats, transformStrategyValidator, hcols, hix, hfl]

/-- No fitted column is missing from the input when all assigned columns
are present. -/
theorem colMismatchCheck_false_of (s : TSState) (X : Frame)
    (strats : List (String × String)) (hs : s.strats = some strats)
    (h : ∀ c ∈ strats.map Prod.fst, c ∈ X.colNames) :
    colMismatchCheck s X = false := by
  unfold colMismatchCheck
  rw [hs]
  rw [List.any_eq_false]
  intro c hc
  have hmem := h c hc
  simp [List.elem_iff, hmem]

/-! ## C1: zero missing values after fit-then-transform -/

/-- C1 (amended, proved): on a dataset that already carries a datetime row
index with no duplicated timestamp — the spec's strictly sortable
temporal axis, under which the label-based fill assignment of the
`random`/`norm` strategies selects exactly the missing rows; column
promotion is separately defective — with unique column names, one value
per index row in every column, no all-missing columns, and
numeric-or-missing values in every column whose resolved strategy is an
interpolation, a successful `fit` followed by `transform` on the same
dataset succeeds, and in the result every column whose resolved strategy
is mean, median, mode, random, or norm has zero missing values, while a
column resolved to linear or time interpolation can retain missing
values only in a leading block of rows before its first observed
value. -/
theorem C1_amended_zero_missing (s0 s1 : TSState) (X : Frame) (rng : RNG)
    (hfit : fit s0 X = (s1, none))
    (hnodup : X.colNames.Nodup)
    (hix : X.index.isDt = true)
    (hknodup : X.index.keys.Nodup)
    (hwf : ∀ col ∈ X.cols, col.vals.length = X.index.keys.length)
    (hnumeric : ∀ p ∈ s1.statistics.getD [],
      (p.2.strategy = "linear" ∨ p.2.strategy = "time") →
      numOrNa (X.colVals p.1) = true)
    (hnoall : ∀ col ∈ X.cols, allNa col.vals = false) :
    ∃ s2 Y, transform s1 X rng = (s2, .ok Y) ∧
      ∀ p ∈ s1.statistics.getD [],
        ((p.2.strategy = "mean" ∨ p.2.strategy = "median" ∨ p.2.strategy = "mode" ∨
            p.2.strategy = "random" ∨ p.2.strategy = "norm") →
          naCount (Y.colVals p.1) = 0) ∧
        ((p.2.strategy = "linear" ∨ p.2.strategy = "time") →
          naLeading (Y.colVals p.1)) := by
  obtain ⟨hmiss, strats, hcfs, rfl⟩ := fit_ok_spec s0 s1 X hfit
  have hkeys := checkFitStrat_keys _ _ _ _ hcfs
  have hsub := nanColDropper_names_sublist X
  have hmemnames : ∀ c ∈ strats.map Prod.fst, c ∈ X.colNames := by
    intro c hc
    rw [hkeys] at hc
    exact hsub.subset hc
  have hstatskeys := learnedStats_keys X strats
  have hnodupkeys : ((learnedStats X strats).map Prod.fst).Nodup := by
    rw [hstatskeys, hkeys]
    exact hnodup.sublist hsub
  have hshape := fun p hp => fitted_stats_shape X strats hmemnames p hp
  have hrandcond : ∀ p ∈ learnedStats X strats,
      p.2.strategy = "random" → ∀ a, p.2.param = Param.arr a → a ≠ [] := by
    intro p hp hs a ha
    obtain ⟨f, col, hcol, hcolmem, hpst⟩ := hshape p hp
    rw [hpst] at hs ha
    rw [learnCol_random_param f col hs] at ha
    cases ha
    exact obs_ne_nil _ (hnoall col hcolmem)
  have hpresent : ∀ p ∈ learnedStats X strats, p.1 ∈ (sortRows X).colNames := by
    intro p hp
    rw [sortRows_colNames]
    refine hmemnames p.1 ?_
    rw [← hstatskeys]
    exact List.mem_map_of_mem _ hp
  have hloc : ∀ p ∈ learnedStats X strats,
      locUnique (sortRows X).index.keys ((sortRows X).colVals p.1) = true := by
    intro p hp
    obtain ⟨f, col, hcol, hcolmem, _⟩ := hshape p hp
    refine sortRows_locUnique X p.1 hknodup ?_
    rw [colVals_eq_of_findCol _ _ _ hcol]
    exact le_of_eq (hwf col hcolmem)
  obtain ⟨Y, hfl, hN, hI, hvals⟩ :=
    fillLoop_ok rng (sortRows X).index.keys (learnedStats X strats) (sortRows X)
      hnodupkeys hpresent hrandcond hloc
  have hcols := colMismatchCheck_false_of
    { s0 with nc := some (nanColDropper X).2, strats := some strats,
              statistics := some (learnedStats X strats) } X strats rfl hmemnames
  refine ⟨_, Y, transform_dt_ok _ X rng _ Y rfl hmiss hcols hix hfl, ?_⟩
  intro p hp
  have hp' : p ∈ learnedStats X strats := hp
  obtain ⟨f, col, hcol, hcolmem, hpst⟩ := hshape p hp'
  have hYvals := hvals p hp'
  constructor
  · intro hs
    rw [hpst] at hs
    rw [hYvals, hpst]
    exact fillValsFun_learnCol_naCount _ _ _ f col _ (hnoall col hcolmem) hs
  · intro hs
    have hwfs : numOrNa ((sortRows X).colVals p.1) = true :=
      sortRows_colVals_numOrNa X p.1 (hnumeric p hp hs)
    rw [hpst] at hs
    rw [hYvals, hpst]
    exact fillValsFun_learnCol_naLeading _ _ _ f col _ hwfs hs

/-- Witness for the amended C1 at a concrete engine (strategy `"mean"`)
and time-indexed frame with one missing value. -/
theorem C1_amended_witness :
    ∃ s2 Y, transform (fit (mkState (.one "mean") none none) c1xFrame).1 c1xFrame rngZero
        = (s2, .ok Y) ∧
      ∀ p ∈ (fit (mkState (.one "mean") none none) c1xFrame).1.statistics.getD [],
        ((p.2.strategy = "mean" ∨ p.2.strategy = "median" ∨ p.2.strategy = "mode" ∨
            p.2.strategy = "random" ∨ p.2.strategy = "norm") →
          naCount (Y.colVals p.1) = 0) ∧
        ((p.2.strategy = "linear" ∨ p.2.strategy = "time") →
          naLeading (Y.colVals p.1)) := by
  refine C1_amended_zero_missing (mkState (.one "mean") none none) _ c1xFrame rngZero
    ?_ ?_ ?_ ?_ ?_ ?_ ?_
  · with_unfolding_all decide
  · with_unfolding_all decide
  · rfl
  · with_unfolding_all decide
  · with_unfolding_all decide
  · with_unfolding_all decide
  · with_unfolding_all decide

/-! ## C3: shape and value preservation of transform -/

/-- C3 (amended, proved): for an engine fitted on a dataset with unique
column names and no all-missing columns, `transform` on any input that
passes the missingness precondition, already carries a strictly
increasing — sorted, with no duplicated timestamp — datetime index (so
no column promotion, which is separately defective, and so the
label-based fill assignment of the `random`/`norm` strategies selects
exactly the missing rows) with one value per index row in every column,
and contains every fitted column, succeeds and returns a dataset with the
same column names and order, the same index (hence the same shape), every
originally observed value unchanged at its position, and each fitted
column equal to its strategy's fill of the input column. -/
theorem C3_amended_shape_preservation (s0 s1 : TSState) (X Xt : Frame) (rng : RNG)
    (hfit : fit s0 X = (s1, none))
    (hnodupX : X.colNames.Nodup)
    (hnoallX : ∀ col ∈ X.cols, allNa col.vals = false)
    (hmiss : checkMissingness Xt = true)
    (hix : Xt.index.isDt = true)
    (hmono : monoLt Xt.index.keys = true)
    (hwf : ∀ col ∈ Xt.cols, col.vals.length = Xt.index.keys.length)
    (hpresent : ∀ c ∈ (s1.strats.getD []).map Prod.fst, c ∈ Xt.colNames) :
    ∃ s2 Y, transform s1 Xt rng = (s2, .ok Y) ∧
      Y.colNames = Xt.colNames ∧
      Y.index = Xt.index ∧
      (∀ c, (Y.colVals c).length = (Xt.colVals c).length) ∧
      (∀ c i, isNa ((Xt.colVals c).getD i Val.na) = false →
        (Y.colVals c).getD i Val.na = (Xt.colVals c).getD i Val.na) ∧
      (∀ p ∈ s1.statistics.getD [],
        Y.colVals p.1 = fillValsFun rng Xt.index.keys p.1 p.2 (Xt.colVals p.1)) := by
  obtain ⟨hmissX, strats, hcfs, rfl⟩ := fit_ok_spec s0 s1 X hfit
  have hkeys := checkFitStrat_keys _ _ _ _ hcfs
  have hsub := nanColDropper_names_sublist X
  have hmemnames : ∀ c ∈ strats.map Prod.fst, c ∈ X.colNames := by
    intro c hc
    rw [hkeys] at hc
    exact hsub.subset hc
  have hstatskeys := learnedStats_keys X strats
  have hnodupkeys : ((learnedStats X strats).map Prod.fst).Nodup := by
    rw [hstatskeys, hkeys]
    exact hnodupX.sublist hsub
  have hshape := fun p hp => fitted_stats_shape X strats hmemnames p hp
  have hrandcond : ∀ p ∈ learnedStats X strats,
      p.2.strategy = "random" → ∀ a, p.2.param = Param.arr a → a ≠ [] := by
    intro p hp hs a ha
    obtain ⟨f, col, hcol, hcolmem, hpst⟩ := hshape p hp
    rw [hpst] at hs ha
    rw [learnCol_random_param f col hs] at ha
    cases ha
    exact obs_ne_nil _ (hnoallX col hcolmem)
  have hsort : sortRows Xt = Xt := sortRows_of_mono Xt (monoLe_of_monoLt _ hmono)
  have hpresent0 : ∀ c ∈ strats.map Prod.fst, c ∈ Xt.colNames := hpresent
  have hpresent' : ∀ p ∈ learnedStats X strats, p.1 ∈ Xt.colNames := by
    intro p hp
    refine hpresent0 p.1 ?_
    rw [← hstatskeys]
    exact List.mem_map_of_mem _ hp
  have hknodup : Xt.index.keys.Nodup := monoLt_nodup _ hmono
  have hloc : ∀ p ∈ learnedStats X strats,
      locUnique Xt.index.keys (Xt.colVals p.1) = true := by
    intro p hp
    obtain ⟨col, hcol, _⟩ := findCol_some_of_mem Xt p.1 (hpresent' p hp)
    rw [colVals_eq_of_findCol _ _ _ hcol]
    exact locUnique_of_nodup _ _ hknodup
      (le_of_eq (hwf col (findCol_mem_names Xt p.1 col hcol).2.2))
  obtain ⟨Y, hfl, hN, hI, hvals⟩ :=
    fillLoop_ok rng Xt.index.keys (learnedStats X strats) Xt
      hnodupkeys hpresent' hrandcond hloc
  have hfl' : fillLoop rng (sortRows Xt).index.keys (learnedStats X strats) (sortRows Xt)
      = .ok Y := by
    rw [hsort]
    exact hfl
  have hcols := colMismatchCheck_false_of
    { s0 with nc := some (nanColDropper X).2, strats := some strats,
              statistics := some (learnedStats X strats) } Xt strats rfl hpresent0
  refine ⟨_, Y, transform_dt_ok _ Xt rng _ Y rfl hmiss hcols hix hfl', hN, hI, ?_, ?_, ?_⟩
  · intro c
    by_cases hc : c ∈ (learnedStats X strats).map Prod.fst
    · obtain ⟨p, hp, rfl⟩ := List.mem_map.mp hc
      rw [hvals p hp, fillValsFun_length]
    · rw [(fillLoop_pres rng Xt.index.keys _ _ _ c hc hfl).1]
  · intro c i hobs
    by_cases hc : c ∈ (learnedStats X strats).map Prod.fst
    · obtain ⟨p, hp, rfl⟩ := List.mem_map.mp hc
      rw [hvals p hp]
      exact fillValsFun_preserve _ _ _ _ _ _ hobs
    · rw [(fillLoop_pres rng Xt.index.keys _ _ _ c hc hfl).1]
  · intro p hp
    exact hvals p hp

/-- Witness for the amended C3: a fitted engine transforming a concrete
time-indexed frame. -/
theorem C3_amended_witness :
    ∃ s2 Y, transform (fit (mkState (.one "mean") none none)
        ⟨⟨true, [0, 1], none⟩, [⟨"w", .num, [Val.num 1, Val.na]⟩]⟩).1
        ⟨⟨true, [0, 1], none⟩, [⟨"w", .num, [Val.num 1, Val.na]⟩]⟩ rngZero = (s2, .ok Y) ∧
      Y.colNames = (⟨⟨true, [0, 1], none⟩,
        [⟨"w", .num, [Val.num 1, Val.na]⟩]⟩ : Frame).colNames ∧
      Y.index = (⟨⟨true, [0, 1], none⟩,
        [⟨"w", .num, [Val.num 1, Val.na]⟩]⟩ : Frame).index ∧
      (∀ c, (Y.colVals c).length
        = ((⟨⟨true, [0, 1], none⟩,
            [⟨"w", .num, [Val.num 1, Val.na]⟩]⟩ : Frame).colVals c).length) ∧
      (∀ c i, isNa (((⟨⟨true, [0, 1], none⟩,
            [⟨"w", .num, [Val.num 1, Val.na]⟩]⟩ : Frame).colVals c).getD i Val.na) = false →
        (Y.colVals c).getD i Val.na
          = ((⟨⟨true, [0, 1], none⟩,
              [⟨"w", .num, [Val.num 1, Val.na]⟩]⟩ : Frame).colVals c).getD i Val.na) ∧
      (∀ p ∈ (fit (mkState (.one "mean") none none)
          ⟨⟨true, [0, 1], none⟩, [⟨"w", .num, [Val.num 1, Val.na]⟩]⟩).1.statistics.getD [],
        Y.colVals p.1 = fillValsFun rngZero
          (⟨⟨true, [0, 1], none⟩, [⟨"w", .num, [Val.num 1, Val.na]⟩]⟩ : Frame).index.keys
          p.1 p.2
          ((⟨⟨true, [0, 1], none⟩,
            [⟨"w", .num, [Val.num 1, Val.na]⟩]⟩ : Frame).colVals p.1)) := by
  refine C3_amended_shape_preservation (mkState (.one "mean") none none) _
    ⟨⟨true, [0, 1], none⟩, [⟨"w", .num, [Val.num 1, Val.na]⟩]⟩
    ⟨⟨true, [0, 1], none⟩, [⟨"w", .num, [Val.num 1, Val.na]⟩]⟩ rngZero
    ?_ ?_ ?_ ?_ ?_ ?_ ?_ ?_
  · with_unfolding_all decide
  · with_unfolding_all decide
  · with_unfolding_all decide
  · with_unfolding_all decide
  · rfl
  · rfl
  · with_unfolding_all decide
  · with_unfolding_all decide

/-! ## C9: random fills draw members of the stored training values -/

/-- The per-column fill of a `random` strategy, exposed. -/
theorem fillVals_random_eq (rng : RNG) (idx : List ℤ) (c : String) (st : ColStat)
    (v : List Val) (a : List Val)
    (hs : st.strategy = "random") (hp : st.param = Param.arr a) :
    fillVals rng idx c st v
      = if a = [] then .error .valueError
        else if locUnique idx v then .ok (fillValsFun rng idx c st v)
        else .error .valueError := by
  unfold fillVals
  rw [if_pos hs, hp]

/-- The pure fill of a `random` strategy is the random draw fill. -/
theorem fillValsFun_random_eq (rng : RNG) (idx : List ℤ) (c : String) (st : ColStat)
    (v : List Val) (a : List Val)
    (hs : st.strategy = "random") (hp : st.param = Param.arr a) :
    fillValsFun rng idx c st v = randomFill rng c a v := by
  simp [fillValsFun, hs, hp]

/-- C9 (confirmed): for a column fitted with strategy `"random"`, whenever
`transform` returns a dataset, each value it wrote at a missing position of
that column is a member of the stored array of originally-observed
non-missing training values, and equals the oracle's draw numbered by that
position's rank among the missing positions — one independent draw (with
replacement) per missing position.  The input is required to carry a
monotone datetime index, so positions are preserved. -/
theorem C9_random_membership (s0 s1 s2 : TSState) (X Xt Y : Frame) (rng : RNG)
    (hfit : fit s0 X = (s1, none))
    (hnodupX : X.colNames.Nodup)
    (hix : Xt.index.isDt = true)
    (hmono : monoLe Xt.index.keys = true)
    (htr : transform s1 Xt rng = (s2, .ok Y))
    (c : String) (st : ColStat)
    (hmem : (c, st) ∈ s1.statistics.getD [])
    (hrand : st.strategy = "random") :
    ∀ i, i < (Xt.colVals c).length → isNa ((Xt.colVals c).getD i Val.na) = true →
      (Y.colVals c).getD i Val.na ∈ obs (X.colVals c) ∧
      (Y.colVals c).getD i Val.na
        = (obs (X.colVals c)).getD
            (rng.choice c (naRank (Xt.colVals c) i) % (obs (X.colVals c)).length)
            Val.na := by
  obtain ⟨hmissX, strats, hcfs, rfl⟩ := fit_ok_spec s0 s1 X hfit
  have hkeys := checkFitStrat_keys _ _ _ _ hcfs
  have hsub := nanColDropper_names_sublist X
  have hmemnames : ∀ c' ∈ strats.map Prod.fst, c' ∈ X.colNames := by
    intro c' hc
    rw [hkeys] at hc
    exact hsub.subset hc
  have hnodupkeys : ((learnedStats X strats).map Prod.fst).Nodup := by
    rw [learnedStats_keys X strats, hkeys]
    exact hnodupX.sublist hsub
  have hmem' : (c, st) ∈ learnedStats X strats := hmem
  obtain ⟨f, col, hcol, hcolmem, hst⟩ :=
    fitted_stats_shape X strats hmemnames (c, st) hmem'
  unfold transform at htr
  split at htr
  · exact absurd (congrArg Prod.snd htr) (fun hh => Except.noConfusion hh)
  · dsimp only at htr
    split at htr
    · exact absurd (congrArg Prod.snd htr) (fun hh => Except.noConfusion hh)
    · rename_i sX hval
      split at htr
      · exact absurd (congrArg Prod.snd htr) (fun hh => Except.noConfusion hh)
      · rename_i Y' hfl
        have hst' : st = ColStat.mk (learnCol f col).1 (learnCol f col).2 := hst
        have hcol' : X.findCol c = some col := hcol
        have hYY : Y' = Y := by
          have hh := congrArg Prod.snd htr
          cases hh
          rfl
        rw [← hYY]
        have hsX2 : sX.2 = sortRows Xt := by
          unfold transformStrategyValidator at hval
          split at hval
          all_goals try cases hval
          all_goals rfl
        rw [hsX2, sortRows_of_mono Xt hmono] at hfl
        have hinv := fillLoop_ok_colVals rng Xt.index.keys (learnedStats X strats) Xt Y'
          hnodupkeys hfl (c, st) hmem'
        have hp : st.param = Param.arr (obs col.vals) := by
          rw [hst']
          exact learnCol_random_param f col (by rw [hst'] at hrand; exact hrand)
        rw [fillVals_random_eq rng Xt.index.keys c st _ _ hrand hp] at hinv
        by_cases hnil : obs col.vals = []
        · rw [if_pos hnil] at hinv
          cases hinv
        · rw [if_neg hnil] at hinv
          by_cases hloc : locUnique Xt.index.keys (Xt.colVals c) = true
          case neg =>
            rw [if_neg hloc] at hinv
            cases hinv
          rw [if_pos hloc] at hinv
          have hYc : Y'.colVals c = fillValsFun rng Xt.index.keys c st (Xt.colVals c) :=
            (Except.ok.inj hinv).symm
          rw [fillValsFun_random_eq rng Xt.index.keys c st _ _ hrand hp] at hYc
          have hXc : X.colVals c = col.vals := colVals_eq_of_findCol _ _ _ hcol'
          intro i hi hina
          rw [hYc, randomFill_getD _ _ _ _ _ hi, if_pos hina, hXc]
          refine ⟨?_, rfl⟩
          exact getD_mem_of_lt _ _ (Nat.mod_lt _ (List.length_pos.mpr hnil))

/-- Witness for C9: the value written at the missing position 1 of the
concrete run is an observed training value, namely the oracle's draw. -/
theorem C9_random_membership_witness :
    (c9Out.colVals "v").getD 1 Val.na ∈ obs (c9Frame.colVals "v") ∧
    (c9Out.colVals "v").getD 1 Val.na
      = (obs (c9Frame.colVals "v")).getD
          (rngZero.choice "v" (naRank (c9Frame.colVals "v") 1) % (obs (c9Frame.colVals "v")).length)
          Val.na := by
  refine C9_random_membership c9State (fit c9State c9Frame).1
    (transform (fit c9State c9Frame).1 c9Frame rngZero).1 c9Frame c9Frame c9Out rngZero
    ?_ ?_ rfl ?_ ?_ "v" ⟨Param.arr [Val.num 7], "random"⟩ ?_ rfl 1 ?_ ?_
  · with_unfolding_all decide
  · with_unfolding_all decide
  · with_unfolding_all decide
  · with_unfolding_all decide
  · with_unfolding_all decide
  · with_unfolding_all decide
  · with_unfolding_all decide
